import Mathlib

/-!
Verification development for a branch-and-bound solver for 0/1 linear programs.

The development shallowly embeds the python sources:
  src/model/Model.py            (class Model, Model.extract_coefficients)
  src/utils/branch_and_bound.py (lp_relaxation, find_next_branch_var,
                                 generate_root_node, generate_left_child_node,
                                 generate_right_child_node, generate_child_nodes,
                                 all_binary_check, solve_branch_and_bound,
                                 create_branch_and_bound_tree)

Modelling conventions:
- python float values are modelled as rationals;
- a python dict of variable values is an ordered association list
  (python dicts preserve insertion order, and all dicts here are built by
  iterating the variable list in order);
- the gurobi solver is an abstract deterministic LP oracle: a function from
  an LP request (direction, objective, constraints, per-variable bound and
  type specs) to either an optimal result or a non-optimal status;
- python exceptions are an explicit error type threaded through Except;
- the tuple(d.items()) keys are the association lists themselves;
- networkx DiGraph is a pair of a node list (with attribute) and an edge list,
  both duplicate-free by construction, exactly as networkx deduplicates;
- the runs additionally record instrumentation that the python code prints or
  that is implicit in its control flow: the list of LP requests submitted to
  the oracle and an event list of generator calls and frontier admissions.
  The instrumentation only records what happens; it never alters control flow.
-/

namespace BB

/-- A variable assignment: ordered (name, value) pairs, as a python dict. -/
abbrev Assignment := List (String × ℚ)

/-- Errors raised by the python code at the places the embedding covers:
AttributeError from calling .items() on the string sentinel "infeasible"
or on None; IndexError from indexing the empty regex findall result;
ValueError raised explicitly on an unrecognized operator or on a branch
value outside the handled cases. -/
inductive PyError where
  | attributeError
  | indexError
  | valueErrorOperator (op : String)
  | valueErrorValue (var : String)
  deriving DecidableEq, Repr

/-- Gurobi variable type flag used by the code: GRB.CONTINUOUS or GRB.BINARY. -/
inductive VType where
  | continuous
  | binary
  deriving DecidableEq, Repr

/-- One addVar call: name, lower bound, upper bound, vtype. -/
structure VarSpec where
  name : String
  lb : ℚ
  ub : ℚ
  vtype : VType
  deriving DecidableEq, Repr

/-- One addConstr call: a linear expression as (coefficient, variable) terms,
the operator string, and the right-hand side. -/
structure Constr where
  expr : List (ℚ × String)
  op : String
  rhs : ℤ
  deriving DecidableEq, Repr

/-- A complete model handed to the LP oracle: direction, objective expression,
constraints, and the variable specs in declaration order. -/
structure LPRequest where
  maximize : Bool
  objective : List (ℚ × String)
  constrs : List Constr
  vars : List VarSpec
  deriving DecidableEq, Repr

/-- Result of one oracle optimize call: an optimal objective value together
with a valuation of the variables, or any non-optimal status (the code treats
every non-OPTIMAL status alike). -/
inductive OracleResult where
  | optimal (objVal : ℚ) (point : String → ℚ)
  | notOptimal

/-- The LP oracle: a deterministic external solver. -/
abbrev Oracle := LPRequest → OracleResult

/-- A node dict as built by the generators: optimal_objective and
decision_vars, where none models the "infeasible" string sentinel in both
fields (the code always sets both to the sentinel together). -/
structure Node where
  obj : Option ℚ
  vars : Option Assignment
  deriving DecidableEq, Repr

/-- Decidable equality of Except results, for evaluating runs on concrete
inputs. -/
instance {ε α : Type _} [DecidableEq ε] [DecidableEq α] : DecidableEq (Except ε α) := fun x y =>
  match x, y with
  | .ok a, .ok b => decidable_of_iff (a = b) (by simp)
  | .error a, .error b => decidable_of_iff (a = b) (by simp)
  | .ok _, .error _ => isFalse (by simp)
  | .error _, .ok _ => isFalse (by simp)

/-- tuple(x.items()) where x is either a dict or the string sentinel:
on the sentinel the attribute lookup raises AttributeError. -/
def items? : Option Assignment → Except PyError Assignment
  | some a => .ok a
  | none => .error .attributeError

/-- The model value built by the excluded parsing layer (class Model):
objective direction string, objective function string, constraint strings,
and the ordered binary variable names. -/
structure Model where
  set_obj : String
  obj_f : String
  constraints : List String
  binary_vars : List String
  deriving DecidableEq, Repr

/-! ### Regex scanners used by Model.extract_coefficients

re.findall(r'(\d+)\s*\*', s): all digit runs directly followed by optional
whitespace and a literal star, scanned left to right.  The scanner state is
none when no candidate match is in progress, and some (digits, inWs) when a
digit run has been read (inWs records whether the whitespace phase started). -/

/-- Digits of a decimal literal to a natural number (int() on a digit run). -/
def natOfDigits (ds : List Char) : ℕ :=
  ds.foldl (fun n c => 10 * n + (c.toNat - 48)) 0

/-- Scanner for re.findall(r'(\d+)\s*\*', s) over the character list. -/
def findallCoeffs : List Char → Option (List Char × Bool) → List ℕ
  | [], _ => []
  | c :: rest, none =>
      if c.isDigit then findallCoeffs rest (some ([c], false))
      else findallCoeffs rest none
  | c :: rest, some (ds, false) =>
      if c.isDigit then findallCoeffs rest (some (ds ++ [c], false))
      else if c = '*' then natOfDigits ds :: findallCoeffs rest none
      else if c.isWhitespace then findallCoeffs rest (some (ds, true))
      else findallCoeffs rest none
  | c :: rest, some (ds, true) =>
      if c = '*' then natOfDigits ds :: findallCoeffs rest none
      else if c.isWhitespace then findallCoeffs rest (some (ds, true))
      else if c.isDigit then findallCoeffs rest (some ([c], false))
      else findallCoeffs rest none

/-- Coefficients extracted from one expression string. -/
def extractCoeffs (s : String) : List ℤ :=
  (findallCoeffs s.data none).map Int.ofNat

/-- Scanner for re.findall(r'[<>=]+', s): maximal runs of relational
characters, in order. -/
def findallOps : List Char → Option (List Char) → List String
  | [], none => []
  | [], some acc => [String.mk acc]
  | c :: rest, none =>
      if c = '<' ∨ c = '>' ∨ c = '=' then findallOps rest (some [c])
      else findallOps rest none
  | c :: rest, some acc =>
      if c = '<' ∨ c = '>' ∨ c = '=' then findallOps rest (some (acc ++ [c]))
      else String.mk acc :: findallOps rest none

/-- re.findall(r'[<>=]+', s)[0]: none models the IndexError on no match. -/
def firstOp (s : String) : Option String :=
  (findallOps s.data none).head?

/-- re.findall(r'(\d+)\s*$', s)[0]: the trailing digit run before optional
trailing whitespace; none models the IndexError on no match. -/
def lastValue? (s : String) : Option ℕ :=
  let r := (s.data.reverse.dropWhile Char.isWhitespace).takeWhile Char.isDigit
  if r.isEmpty then none else some (natOfDigits r.reverse)

/-- The per-constraint part of Model.extract_coefficients: coefficient row,
operator, right-hand side, failing with IndexError exactly when the
operator regex or the right-hand-side regex finds nothing. -/
def extractConstraint (constraint : String) : Except PyError (List ℤ × String × ℤ) :=
  let constraint_coeffs := extractCoeffs constraint
  match firstOp constraint with
  | none => .error .indexError
  | some operator =>
      match lastValue? constraint with
      | none => .error .indexError
      | some last_value => .ok (constraint_coeffs, operator, Int.ofNat last_value)

/-- Model.extract_coefficients: objective coefficients, constraint coefficient
rows, constraint operators, constraint right-hand sides.  No length or
consistency validation of any kind is performed. -/
def Model.extract_coefficients (m : Model) :
    Except PyError (List ℤ × List (List ℤ) × List String × List ℤ) := do
  let objective_coefficients := extractCoeffs m.obj_f
  let parts ← m.constraints.mapM extractConstraint
  return (objective_coefficients, parts.map (·.1), parts.map (·.2.1), parts.map (·.2.2))

/-! ### LP request construction shared by lp_relaxation and the generators -/

/-- gp.quicksum(coeff * vars[name] for coeff, name in zip(row, names)):
zip truncates to the shorter list with no error. -/
def zipExpr : List ℤ → List String → List (ℚ × String)
  | c :: cs, n :: ns => ((c : ℚ), n) :: zipExpr cs ns
  | _, _ => []

/-- The constraint-adding loop shared verbatim by lp_relaxation and the three
generators: for row, operator, rhs in zip(rows, ops, rhss) build the
expression and dispatch on the operator, raising ValueError on an operator
outside the three recognized symbols.  zip truncates silently. -/
def buildConstraints : List (List ℤ) → List String → List ℤ → List String →
    Except PyError (List Constr)
  | row :: rows, op :: ops, rv :: rvs, names =>
      if op = "<=" ∨ op = ">=" ∨ op = "==" then do
        let rest ← buildConstraints rows ops rvs names
        return ⟨zipExpr row names, op, rv⟩ :: rest
      else .error (.valueErrorOperator op)
  | _, _, _, _ => .ok []

/-- round(x, 2) on an exact rational: the nearest multiple of 1/100, ties to
the even multiple, as python round does on exactly representable values.
Computed on the numerator and denominator: f = floor(100 q) and r the
remainder, so 100 q is f + r/den; the comparison of 2 r against den decides
which neighbouring multiple is closer. -/
def round2 (q : ℚ) : ℚ :=
  let n : ℤ := q.num * 100
  let f : ℤ := Int.ediv n q.den
  let r : ℤ := Int.emod n q.den
  if 2 * r < (q.den : ℤ) then mkRat f 100
  else if ((q.den : ℤ)) < 2 * r then mkRat (f + 1) 100
  else if f % 2 = 0 then mkRat f 100 else mkRat (f + 1) 100

/-- gp_model.optimize() plus the status check every generator performs:
on OPTIMAL the node holds the rounded objective value and the dict
{name: var.X for the declared variables, in declaration order}; otherwise
both fields hold the infeasible sentinel. -/
def runOracle (oracle : Oracle) (req : LPRequest) : Node :=
  match oracle req with
  | .optimal v point => ⟨some (round2 v), some (req.vars.map fun s => (s.name, point s.name))⟩
  | .notOptimal => ⟨none, none⟩

/-- The request built by lp_relaxation(set_obj, coefficients, operators,
last_values, decision_variables).  Every decision variable is continuous with
bounds [0, 1].  The objective is quicksum(coeff * vars[name] for coeff_row in
coefficients for coeff, name in zip(coeff_row, decision_variables)): the sum
over ALL the rows passed in the coefficients argument. -/
def lp_relaxation_request (set_obj : String) (coefficients : List (List ℤ))
    (operators : List String) (last_values : List ℤ)
    (decision_variables : List String) : Except PyError LPRequest := do
  let vars := decision_variables.map fun n => VarSpec.mk n 0 1 .continuous
  let objective := coefficients.flatMap fun row => zipExpr row decision_variables
  let constrs ← buildConstraints coefficients operators last_values decision_variables
  return ⟨set_obj = "MAXIMIZE", objective, constrs, vars⟩

/-- lp_relaxation: build the request, optimize, and return the assignment dict
if the status is OPTIMAL, otherwise fall through returning None.  The request
is also returned for the oracle-call trace. -/
def lp_relaxation (oracle : Oracle) (set_obj : String) (coefficients : List (List ℤ))
    (operators : List String) (last_values : List ℤ)
    (decision_variables : List String) :
    Except PyError (Option Assignment × LPRequest) := do
  let req ← lp_relaxation_request set_obj coefficients operators last_values decision_variables
  match oracle req with
  | .optimal _ point => return (some (decision_variables.map fun n => (n, point n)), req)
  | .notOptimal => return (none, req)

/-! ### Branching rule and integrality test -/

/-- The loop body of find_next_branch_var with its two locals
next_branch_var and max_fractional_value. -/
def findAux : List (String × ℚ) → Option String → ℚ → Option String
  | [], next_branch_var, _ => next_branch_var
  | p :: rest, next_branch_var, max_fractional_value =>
      if 0 < p.2 ∧ p.2 < 1 ∧ max_fractional_value < p.2 then
        findAux rest (some p.1) p.2
      else
        findAux rest next_branch_var max_fractional_value

/-- find_next_branch_var: scan the assignment, keeping the first variable
attaining the strictly largest fractional value; None when nothing is
strictly between 0 and 1. -/
def find_next_branch_var (relaxation : Assignment) : Option String :=
  findAux relaxation none (-1)

/-- find_next_branch_var applied to a value that may be the None returned by
an infeasible lp_relaxation or the "infeasible" sentinel: iterating
.items() raises AttributeError on those. -/
def find_next_branch_var? (relaxation : Option Assignment) : Except PyError (Option String) := do
  let r ← items? relaxation
  return find_next_branch_var r

/-- all_binary_check: every value in the dict is exactly 0 or exactly 1. -/
def all_binary_check (current_vars : Assignment) : Bool :=
  current_vars.all fun p => p.2 == 0 || p.2 == 1

/-! ### Node generators -/

/-- generate_root_node: the chosen branch variable (possibly None) is declared
BINARY with bounds [0, 1]; every other variable is continuous [0, 1]. -/
def generate_root_node (oracle : Oracle) (set_obj : String)
    (objective_coeffs : List ℤ) (constraint_coeffs : List (List ℤ))
    (operators : List String) (last_values : List ℤ)
    (binary_vars : List String) (branch_var : Option String) :
    Except PyError (Node × LPRequest) := do
  let vars := binary_vars.map fun var_name =>
    if some var_name = branch_var then VarSpec.mk var_name 0 1 .binary
    else VarSpec.mk var_name 0 1 .continuous
  let objective := zipExpr objective_coeffs binary_vars
  let constrs ← buildConstraints constraint_coeffs operators last_values binary_vars
  let req : LPRequest := ⟨set_obj = "MAXIMIZE", objective, constrs, vars⟩
  return (runOracle oracle req, req)

/-- The addVar dispatch for the branch variable in generate_left_child_node.
The first guard is the literal python condition
root_var_value is None or 0 <= root_var_value <= 1, which also captures the
values 0 and 1, leaving the two elif branches below it unreachable; they are
kept verbatim. -/
def leftBranchVarSpec (var_name : String) (root_var_value : Option ℚ) :
    Except PyError VarSpec :=
  match root_var_value with
  | none => .ok ⟨var_name, 1, 1, .binary⟩
  | some v =>
      if 0 ≤ v ∧ v ≤ 1 then .ok ⟨var_name, 1, 1, .binary⟩
      else if v = 1 then .ok ⟨var_name, 1, 1, .binary⟩
      else if v = 0 then .ok ⟨var_name, 0, 0, .binary⟩
      else .error (.valueErrorValue var_name)

/-- The addVar dispatch for the branch variable in generate_right_child_node,
with the same dead elif branches. -/
def rightBranchVarSpec (var_name : String) (root_var_value : Option ℚ) :
    Except PyError VarSpec :=
  match root_var_value with
  | none => .ok ⟨var_name, 0, 0, .binary⟩
  | some v =>
      if 0 ≤ v ∧ v ≤ 1 then .ok ⟨var_name, 0, 0, .binary⟩
      else if v = 1 then .ok ⟨var_name, 0, 0, .continuous⟩
      else if v = 0 then .ok ⟨var_name, 1, 1, .binary⟩
      else .error (.valueErrorValue var_name)

/-- generate_left_child_node: the branch variable is dispatched on
root_decision_vars.get(var_name, None) through leftBranchVarSpec; every other
variable is continuous [0, 1].  The built request is returned alongside the
node for the oracle-call trace. -/
def generate_left_child_node (m : Model) (oracle : Oracle)
    (objective_coeffs : List ℤ) (constraint_coeffs : List (List ℤ))
    (operators : List String) (last_values : List ℤ)
    (binary_vars : List String) (branch_var : Option String)
    (root_decision_vars : Assignment) : Except PyError (Node × LPRequest) := do
  let vars ← binary_vars.mapM fun var_name =>
    if some var_name = branch_var then
      leftBranchVarSpec var_name (List.lookup var_name root_decision_vars)
    else .ok (VarSpec.mk var_name 0 1 .continuous)
  let objective := zipExpr objective_coeffs binary_vars
  let constrs ← buildConstraints constraint_coeffs operators last_values binary_vars
  let req : LPRequest := ⟨m.set_obj = "MAXIMIZE", objective, constrs, vars⟩
  return (runOracle oracle req, req)

/-- generate_right_child_node: mirror of the left child through
rightBranchVarSpec. -/
def generate_right_child_node (m : Model) (oracle : Oracle)
    (objective_coeffs : List ℤ) (constraint_coeffs : List (List ℤ))
    (operators : List String) (last_values : List ℤ)
    (binary_vars : List String) (branch_var : Option String)
    (root_decision_vars : Assignment) : Except PyError (Node × LPRequest) := do
  let vars ← binary_vars.mapM fun var_name =>
    if some var_name = branch_var then
      rightBranchVarSpec var_name (List.lookup var_name root_decision_vars)
    else .ok (VarSpec.mk var_name 0 1 .continuous)
  let objective := zipExpr objective_coeffs binary_vars
  let constrs ← buildConstraints constraint_coeffs operators last_values binary_vars
  let req : LPRequest := ⟨m.set_obj = "MAXIMIZE", objective, constrs, vars⟩
  return (runOracle oracle req, req)

/-- generate_child_nodes(model, decision_vars, next_branch_var,
root_node_vars): re-extracts the coefficients from the model, then builds the
left and right children.  The decision_vars dict of the current node is
passed as the binary_vars argument of the generators, which iterate it,
yielding its keys in order. -/
def generate_child_nodes (m : Model) (oracle : Oracle) (decision_vars : Assignment)
    (next_branch_var : Option String) (root_node_vars : Assignment) :
    Except PyError (Node × LPRequest × Node × LPRequest) := do
  let (objective_coeffs, constraint_coeffs, operators, last_values) ← m.extract_coefficients
  let names := decision_vars.map Prod.fst
  let (l, lreq) ← generate_left_child_node m oracle objective_coeffs constraint_coeffs
    operators last_values names next_branch_var root_node_vars
  let (r, rreq) ← generate_right_child_node m oracle objective_coeffs constraint_coeffs
    operators last_values names next_branch_var root_node_vars
  return (l, lreq, r, rreq)

/-! ### Flat-mode driver: solve_branch_and_bound -/

/-- Instrumentation events recorded during a flat run: a generate_child_nodes
call with the decision_vars of the popped node and the reference assignment
passed as root_node_vars, and a frontier admission of a left or right child
with the popped reference, the admitted key and the reference threaded into
the new frontier entry. -/
inductive Event where
  | genCall (decisionVars : Assignment) (refSource : Assignment)
  | admitLeft (poppedRef : Assignment) (childKey : Assignment) (threadedRef : Assignment)
  | admitRight (poppedRef : Assignment) (childKey : Assignment) (threadedRef : Assignment)
  deriving DecidableEq, Repr

/-- Mutable state of the solve_branch_and_bound loop: node_list entries are
(node, current_node_vars) pairs, visited_nodes the set of assignment keys in
insertion order, plus the oracle-call trace and the event list. -/
structure FlatState where
  queue : List (Node × Assignment)
  visited : List Assignment
  trace : List LPRequest
  events : List Event
  deriving DecidableEq, Repr

/-- Outcome of a fueled run: normal return, a python exception, or fuel
exhaustion of the embedding (the python loop is unbounded). -/
inductive Outcome (α : Type) where
  | ok (val : α)
  | err (e : PyError)
  | fuelOut
  deriving DecidableEq, Repr

/-- What solve_branch_and_bound produces, with instrumentation: the trace of
LP requests submitted to the oracle, the event list, and the returned
visited set (or the exception that aborted the run).  On an exception inside
a loop iteration the trace and events of the completed iterations are kept. -/
structure FlatRun where
  trace : List LPRequest
  events : List Event
  out : Outcome (List Assignment)
  deriving DecidableEq, Repr

/-- One iteration of the while-loop of solve_branch_and_bound, applied to the
popped (current_node, current_node_vars) entry; st.queue already holds the
remaining entries.  Left children are admitted with the popped reference
assignment, right children with their own decision_vars. -/
def flatStep (m : Model) (oracle : Oracle) (cur : Node × Assignment)
    (st : FlatState) : Except PyError FlatState := do
  let (current_node, current_node_vars) := cur
  let decision_vars ← items? current_node.vars
  let next_branch_var := find_next_branch_var decision_vars
  let (l, lreq, r, rreq) ←
    generate_child_nodes m oracle decision_vars next_branch_var current_node_vars
  let trace1 := st.trace ++ [lreq, rreq]
  let events1 := st.events ++ [Event.genCall decision_vars current_node_vars]
  let lk ← items? l.vars
  let q1 := if lk ∈ st.visited then st.queue else st.queue ++ [(l, current_node_vars)]
  let events2 := if lk ∈ st.visited then events1
    else events1 ++ [Event.admitLeft current_node_vars lk current_node_vars]
  let vis1 := if lk ∈ st.visited then st.visited else st.visited ++ [lk]
  let rk ← items? r.vars
  let q2 := if rk ∈ vis1 then q1 else q1 ++ [(r, rk)]
  let events3 := if rk ∈ vis1 then events2
    else events2 ++ [Event.admitRight current_node_vars rk rk]
  let vis2 := if rk ∈ vis1 then vis1 else vis1 ++ [rk]
  return ⟨q2, vis2, trace1, events3⟩

/-- The while-loop of solve_branch_and_bound, popping the earliest-inserted
entry each iteration, bounded by fuel. -/
def flatLoop (m : Model) (oracle : Oracle) : ℕ → FlatState → FlatRun
  | 0, st =>
      match st.queue with
      | [] => ⟨st.trace, st.events, .ok st.visited⟩
      | _ :: _ => ⟨st.trace, st.events, .fuelOut⟩
  | fuel + 1, st =>
      match st.queue with
      | [] => ⟨st.trace, st.events, .ok st.visited⟩
      | cur :: rest =>
          match flatStep m oracle cur { st with queue := rest } with
          | .error e => ⟨st.trace, st.events, .err e⟩
          | .ok st1 => flatLoop m oracle fuel st1

/-- solve_branch_and_bound: extract the coefficients, solve the pre-root
relaxation, choose the first branch variable from it, generate the root node,
record it visited, and run the loop.  The .items() iterations of the printing
code and of the visited-set insertion raise AttributeError when the root is
infeasible, before the loop starts. -/
def solve_branch_and_bound (m : Model) (oracle : Oracle) (fuel : ℕ) : FlatRun :=
  match m.extract_coefficients with
  | .error e => ⟨[], [], .err e⟩
  | .ok (objective_coeffs, constraint_coeffs, operators, last_values) =>
      match lp_relaxation oracle m.set_obj constraint_coeffs operators last_values
          m.binary_vars with
      | .error e => ⟨[], [], .err e⟩
      | .ok (relaxation, relaxReq) =>
          match find_next_branch_var? relaxation with
          | .error e => ⟨[relaxReq], [], .err e⟩
          | .ok next_branch_var =>
              match generate_root_node oracle m.set_obj objective_coeffs
                  constraint_coeffs operators last_values m.binary_vars
                  next_branch_var with
              | .error e => ⟨[relaxReq], [], .err e⟩
              | .ok (root_node, rootReq) =>
                  match items? root_node.vars with
                  | .error e => ⟨[relaxReq, rootReq], [], .err e⟩
                  | .ok rootVars =>
                      flatLoop m oracle fuel
                        ⟨[(root_node, rootVars)], [rootVars], [relaxReq, rootReq], []⟩

/-! ### Tree-mode driver: create_branch_and_bound_tree -/

/-- The networkx DiGraph: nodes in insertion order with their
optimal_objective attribute, and directed edges, both duplicate-free.
add_node on a present key only updates the attribute; add_edge on a present
edge is a no-op. -/
structure Graph where
  nodes : List (Assignment × Option ℚ)
  edges : List (Assignment × Assignment)
  deriving DecidableEq, Repr

/-- The node keys of the graph, in insertion order. -/
def Graph.keys (g : Graph) : List Assignment :=
  g.nodes.map Prod.fst

/-- graph.add_node(k, optimal_objective=a). -/
def Graph.addNode (g : Graph) (k : Assignment) (a : Option ℚ) : Graph :=
  if k ∈ g.keys then ⟨g.nodes.map fun p => if p.1 = k then (k, a) else p, g.edges⟩
  else ⟨g.nodes ++ [(k, a)], g.edges⟩

/-- graph.add_edge(u, v): missing endpoints are added as attribute-less
nodes, then the edge is added if not present. -/
def Graph.addEdge (g : Graph) (u v : Assignment) : Graph :=
  let g1 : Graph := if u ∈ g.keys then g else ⟨g.nodes ++ [(u, none)], g.edges⟩
  let g2 : Graph := if v ∈ g1.keys then g1 else ⟨g1.nodes ++ [(v, none)], g1.edges⟩
  if (u, v) ∈ g2.edges then g2 else ⟨g2.nodes, g2.edges ++ [(u, v)]⟩

/-- graph.in_degree(k): number of edges ending at k. -/
def Graph.inDeg (g : Graph) (k : Assignment) : ℕ :=
  (g.edges.filter fun e => e.2 = k).length

/-- Mutable state of the create_branch_and_bound_tree loop: node_list entries
carry the node_type tag ("root", "left" or "right"), plus the graph and, as
instrumentation, the list of keys of every child the generator produced
(whether or not it was admitted). -/
structure TreeState where
  queue : List (Node × Assignment × String)
  visited : List Assignment
  graph : Graph
  produced : List Assignment
  deriving DecidableEq, Repr

/-- One iteration of the create_branch_and_bound_tree loop.  Both children
always get add_node and add_edge (from the popped reference assignment to the
child key); only unvisited children are queued, a left child with the popped
reference, a right child with its own decision_vars. -/
def treeStep (m : Model) (oracle : Oracle) (cur : Node × Assignment × String)
    (st : TreeState) : Except PyError TreeState := do
  let (current_node, current_node_vars, _node_type) := cur
  let decision_vars ← items? current_node.vars
  let next_branch_var := find_next_branch_var decision_vars
  let (l, _lreq, r, _rreq) ←
    generate_child_nodes m oracle decision_vars next_branch_var current_node_vars
  let lk ← items? l.vars
  let g1 := (st.graph.addNode lk l.obj).addEdge current_node_vars lk
  let produced1 := st.produced ++ [lk]
  let q1 := if lk ∈ st.visited then st.queue
    else st.queue ++ [(l, current_node_vars, "left")]
  let vis1 := if lk ∈ st.visited then st.visited else st.visited ++ [lk]
  let rk ← items? r.vars
  let g2 := (g1.addNode rk r.obj).addEdge current_node_vars rk
  let produced2 := produced1 ++ [rk]
  let q2 := if rk ∈ vis1 then q1 else q1 ++ [(r, rk, "right")]
  let vis2 := if rk ∈ vis1 then vis1 else vis1 ++ [rk]
  return ⟨q2, vis2, g2, produced2⟩

/-- The while-loop of create_branch_and_bound_tree, bounded by fuel. -/
def treeLoop (m : Model) (oracle : Oracle) : ℕ → TreeState → Outcome (Graph × List Assignment)
  | 0, st =>
      match st.queue with
      | [] => .ok (st.graph, st.produced)
      | _ :: _ => .fuelOut
  | fuel + 1, st =>
      match st.queue with
      | [] => .ok (st.graph, st.produced)
      | cur :: rest =>
          match treeStep m oracle cur { st with queue := rest } with
          | .error e => .err e
          | .ok st1 => treeLoop m oracle fuel st1

/-- create_branch_and_bound_tree: same pre-root phase as
solve_branch_and_bound; the root is recorded as the first graph node keyed by
its assignment with its objective as attribute.  Returns the graph and the
produced-children instrumentation list. -/
def create_branch_and_bound_tree (m : Model) (oracle : Oracle) (fuel : ℕ) :
    Outcome (Graph × List Assignment) :=
  match m.extract_coefficients with
  | .error e => .err e
  | .ok (objective_coeffs, constraint_coeffs, operators, last_values) =>
      match lp_relaxation oracle m.set_obj constraint_coeffs operators last_values
          m.binary_vars with
      | .error e => .err e
      | .ok (relaxation, _relaxReq) =>
          match find_next_branch_var? relaxation with
          | .error e => .err e
          | .ok next_branch_var =>
              match generate_root_node oracle m.set_obj objective_coeffs
                  constraint_coeffs operators last_values m.binary_vars
                  next_branch_var with
              | .error e => .err e
              | .ok (root_node, _rootReq) =>
                  match items? root_node.vars with
                  | .error e => .err e
                  | .ok rootVars =>
                      treeLoop m oracle fuel
                        ⟨[(root_node, rootVars, "root")], [rootVars],
                         (Graph.mk [] []).addNode rootVars root_node.obj, []⟩

/-! ### Concrete models and oracles used by the closed theorems

Each oracle below is a deterministic function agreeing with what an exact LP
or MIP solver returns on every request the corresponding run actually
submits. -/

/-- One-variable model: maximize 1*x1 subject to 1*x1 <= 1. -/
def m1 : Model := ⟨ "MAXIMIZE", "1*x1", ["1*x1 <= 1"], ["x1"]⟩

/-- Oracle for m1: every request submitted in the m1 runs has optimum x1 = 1
with objective value 1. -/
def oracle1 : Oracle := fun _ => .optimal 1 (fun _ => 1)

/-- The textbook model of the specification scenario:
maximize 5*x1 + 4*x2 subject to 6*x1 + 4*x2 <= 24 and 1*x1 + 2*x2 <= 6. -/
def m2 : Model :=
  ⟨ "MAXIMIZE", "5*x1 + 4*x2", ["6*x1 + 4*x2 <= 24", "1*x1 + 2*x2 <= 6"], ["x1", "x2"]⟩

/-- Model whose root MIP is infeasible while its relaxation is not:
maximize 2*x1 subject to 2*x1 == 1. -/
def m3 : Model := ⟨ "MAXIMIZE", "2*x1", ["2*x1 == 1"], ["x1"]⟩

/-- Oracle for m3: requests declaring a binary-typed variable (the root
request, where integrality makes 2*x1 == 1 unsatisfiable) are not optimal;
the all-continuous relaxation request has optimum x1 = 1/2. -/
def oracle3 : Oracle := fun req =>
  if req.vars.any (fun s => s.vtype == VType.binary) then .notOptimal
  else .optimal 1 (fun _ => mkRat 1 2)

/-- Model whose search generates an infeasible child:
maximize 1*x1 subject to 2*x1 <= 1. -/
def m4 : Model := ⟨ "MAXIMIZE", "1*x1", ["2*x1 <= 1"], ["x1"]⟩

/-- Oracle for m4, matching an exact solver on every submitted request:
a request fixing x1 with lower bound 1 contradicts 2*x1 <= 1 and is
infeasible; a request declaring x1 binary in [0, 1] has integral optimum
x1 = 0; an all-continuous request has optimum x1 = 1/2. -/
def oracle4 : Oracle := fun req =>
  if req.vars.any (fun s => s.lb == 1) then .notOptimal
  else if req.vars.any (fun s => s.vtype == VType.binary) then .optimal 0 (fun _ => 0)
  else .optimal 1 (fun _ => mkRat 1 2)

/-- Model with a constraint coefficient row shorter than the variable count:
two binary variables but a single-coefficient constraint row. -/
def m5 : Model := ⟨ "MAXIMIZE", "1*x1 + 1*x2", ["1*x1 <= 1"], ["x1", "x2"]⟩

/-- Model with an operator outside the three recognized symbols. -/
def m6 : Model := ⟨ "MAXIMIZE", "1*x1", ["1*x1 < 1"], ["x1"]⟩

/-- The total coefficient a linear expression gives a variable: the sum of
the coefficients of all terms mentioning it.  This is how the oracle reads
the term list a quicksum builds. -/
def exprCoeff (e : List (ℚ × String)) (name : String) : ℚ :=
  ((e.filter fun t => t.2 == name).map Prod.fst).sum

/-- Invariant of the flat search loop tying the instrumentation together:
admitted left children are threaded with the popped reference, admitted
right children with their own key, every recorded generator call took
either the expanded node's own assignment or a left-admission reference as
its parent-value source, and every queue entry carries either its own
assignment or the reference recorded by its left admission. -/
def FlatInv (st : FlatState) : Prop :=
  (∀ pr cv tr, Event.admitLeft pr cv tr ∈ st.events → tr = pr) ∧
  (∀ pr cv tr, Event.admitRight pr cv tr ∈ st.events → tr = cv) ∧
  (∀ dv rs, Event.genCall dv rs ∈ st.events →
    dv = rs ∨ ∃ pr, Event.admitLeft pr dv rs ∈ st.events) ∧
  (∀ e ∈ st.queue, ∀ v, (e : Node × Assignment).1.vars = some v →
    v = e.2 ∨ ∃ pr, Event.admitLeft pr v e.2 ∈ st.events)

/-- Correspondence between a flat-mode and a tree-mode loop state: the
queues agree up to the node_type tag, the visited sets agree, the graph
node keys are exactly the visited keys, and every queued reference is
already visited. -/
def FlatTreeRel (f : FlatState) (t : TreeState) : Prop :=
  f.queue = t.queue.map (fun e => (e.1, e.2.1)) ∧
  f.visited = t.visited ∧
  (∀ k, k ∈ t.graph.keys ↔ k ∈ t.visited) ∧
  (∀ e ∈ t.queue, (e : Node × Assignment × String).2.1 ∈ t.visited)

/-- Invariant of the tree loop relative to the root key rk: the root is the
first recorded node, every other node key has an incoming edge, the root
has an incoming edge exactly when some produced child carried the root key,
edge endpoints are recorded nodes, and queued references are recorded
nodes. -/
def TreeInv (rk : Assignment) (st : TreeState) : Prop :=
  (∃ a rest, st.graph.nodes = (rk, a) :: rest) ∧
  (∀ k, k ∈ st.graph.keys → k ≠ rk → ∃ e ∈ st.graph.edges, e.2 = k) ∧
  ((∃ e ∈ st.graph.edges, e.2 = rk) ↔ rk ∈ st.produced) ∧
  (∀ e ∈ st.graph.edges, (e : Assignment × Assignment).1 ∈ st.graph.keys ∧
    e.2 ∈ st.graph.keys) ∧
  (∀ q ∈ st.queue, (q : Node × Assignment × String).2.1 ∈ st.graph.keys)

/-! ## Theorems -/

/-! ### Graph operation lemmas -/

/-- Key membership after add_node. -/
theorem Graph.keys_addNode (g : Graph) (k : Assignment) (a : Option ℚ) (x : Assignment) :
    x ∈ (g.addNode k a).keys ↔ x ∈ g.keys ∨ x = k := by
  rw [Graph.addNode]
  by_cases hk : k ∈ g.keys
  · rw [if_pos hk]
    have hkeys : (Graph.mk (g.nodes.map fun p => if p.1 = k then (k, a) else p) g.edges).keys
        = g.keys := by
      rw [Graph.keys, Graph.keys, List.map_map]
      congr 1
      funext p
      by_cases hp : p.1 = k
      · simp [hp]
      · simp [hp]
    rw [hkeys]
    constructor
    · exact .inl
    · rintro (h | rfl)
      · exact h
      · exact hk
  · rw [if_neg hk]
    simp [Graph.keys]

/-- add_node does not change the edges. -/
theorem Graph.edges_addNode (g : Graph) (k : Assignment) (a : Option ℚ) :
    (g.addNode k a).edges = g.edges := by
  rw [Graph.addNode]
  by_cases hk : k ∈ g.keys
  · rw [if_pos hk]
  · rw [if_neg hk]

/-- add_node keeps the first recorded node key (updating only its
attribute). -/
theorem Graph.addNode_head (g : Graph) (k : Assignment) (a : Option ℚ)
    (rk : Assignment) (a0 : Option ℚ) (rest : List (Assignment × Option ℚ))
    (h : g.nodes = (rk, a0) :: rest) :
    ∃ a1 rest1, (g.addNode k a).nodes = (rk, a1) :: rest1 := by
  rw [Graph.addNode]
  by_cases hk : k ∈ g.keys
  · rw [if_pos hk, h]
    by_cases hr : rk = k
    · exact ⟨a, rest.map fun p => if p.1 = k then (k, a) else p, by simp [hr]⟩
    · exact ⟨a0, rest.map fun p => if p.1 = k then (k, a) else p, by simp [hr]⟩
  · rw [if_neg hk, h]
    exact ⟨a0, rest ++ [(k, a)], rfl⟩

/-- add_edge with both endpoints recorded does not change the node list. -/
theorem Graph.nodes_addEdge (g : Graph) (u v : Assignment)
    (hu : u ∈ g.keys) (hv : v ∈ g.keys) : (g.addEdge u v).nodes = g.nodes := by
  rw [Graph.addEdge]
  simp only [if_pos hu, if_pos hv]
  by_cases he : (u, v) ∈ g.edges
  · rw [if_pos he]
  · rw [if_neg he]

/-- Edge membership after add_edge (with both endpoints recorded). -/
theorem Graph.edges_addEdge (g : Graph) (u v : Assignment)
    (hu : u ∈ g.keys) (hv : v ∈ g.keys) (e : Assignment × Assignment) :
    e ∈ (g.addEdge u v).edges ↔ e ∈ g.edges ∨ e = (u, v) := by
  rw [Graph.addEdge]
  simp only [if_pos hu, if_pos hv]
  by_cases he : (u, v) ∈ g.edges
  · rw [if_pos he]
    constructor
    · exact .inl
    · rintro (h | rfl)
      · exact h
      · exact he
  · rw [if_neg he]
    simp

/-- A key has positive in-degree exactly when some edge ends at it. -/
theorem Graph.inDeg_pos_iff (g : Graph) (k : Assignment) :
    1 ≤ g.inDeg k ↔ ∃ e ∈ g.edges, e.2 = k := by
  rw [Graph.inDeg]
  rw [Nat.succ_le_iff, List.length_pos_iff_exists_mem]
  constructor
  · rintro ⟨e, he⟩
    have := List.mem_filter.mp he
    exact ⟨e, this.1, by simpa using this.2⟩
  · rintro ⟨e, he, hk⟩
    exact ⟨e, List.mem_filter.mpr ⟨he, by simpa using hk⟩⟩

/-! ### Branching rule: helper lemmas -/

/-- The loop returns none exactly when it started with none and no later
entry triggers an update. -/
theorem findAux_eq_none_iff (A : List (String × ℚ)) :
    ∀ (best : Option String) (maxv : ℚ),
      findAux A best maxv = none ↔
        best = none ∧ ∀ p ∈ A, ¬(0 < p.2 ∧ p.2 < 1 ∧ maxv < p.2) := by
  induction A with
  | nil => intro best maxv; simp [findAux]
  | cons p rest ih =>
      intro best maxv
      by_cases hc : 0 < p.2 ∧ p.2 < 1 ∧ maxv < p.2
      · simp only [findAux, if_pos hc, ih]
        constructor
        · rintro ⟨h, -⟩; exact absurd h (by simp)
        · rintro ⟨-, hall⟩; exact absurd hc (hall p (by simp))
      · simp only [findAux, if_neg hc, ih]
        constructor
        · rintro ⟨hb, hall⟩
          refine ⟨hb, ?_⟩
          intro q hq
          rcases List.mem_cons.mp hq with rfl | hq
          · exact hc
          · exact hall q hq
        · rintro ⟨hb, hall⟩
          exact ⟨hb, fun q hq => hall q (List.mem_cons_of_mem _ hq)⟩

/-- If the loop returns some b, then either it started there and nothing
updated, or b splits the list with all earlier fractional values strictly
below and all later fractional values not above its value. -/
theorem findAux_eq_some (A : List (String × ℚ)) :
    ∀ (best : Option String) (maxv : ℚ) (b : String),
      findAux A best maxv = some b →
      (best = some b ∧ ∀ p ∈ A, ¬(0 < p.2 ∧ p.2 < 1 ∧ maxv < p.2)) ∨
      (∃ pre v suf, A = pre ++ (b, v) :: suf ∧ 0 < v ∧ v < 1 ∧ maxv < v ∧
        (∀ p ∈ pre, 0 < p.2 → p.2 < 1 → p.2 < v) ∧
        (∀ p ∈ suf, 0 < p.2 → p.2 < 1 → p.2 ≤ v)) := by
  induction A with
  | nil =>
      intro best maxv b h
      exact .inl ⟨h, by simp⟩
  | cons p rest ih =>
      intro best maxv b h
      by_cases hc : 0 < p.2 ∧ p.2 < 1 ∧ maxv < p.2
      · rw [findAux, if_pos hc] at h
        rcases ih (some p.1) p.2 b h with ⟨hb, hall⟩ | ⟨pre, v, suf, heq, hv0, hv1, hmax, hpre, hsuf⟩
        · have hb1 : p.1 = b := Option.some.inj hb
          refine .inr ⟨[], p.2, rest, ?_, hc.1, hc.2.1, hc.2.2, by simp, ?_⟩
          · simp [← hb1]
          · intro q hq h0 h1
            by_contra hlt
            exact hall q hq ⟨h0, h1, lt_of_not_le hlt⟩
        · refine .inr ⟨p :: pre, v, suf, by rw [heq]; rfl, hv0, hv1, lt_trans hc.2.2 hmax, ?_, hsuf⟩
          intro q hq h0 h1
          rcases List.mem_cons.mp hq with rfl | hq
          · exact hmax
          · exact hpre q hq h0 h1
      · rw [findAux, if_neg hc] at h
        rcases ih best maxv b h with ⟨hb, hall⟩ | ⟨pre, v, suf, heq, hv0, hv1, hmax, hpre, hsuf⟩
        · refine .inl ⟨hb, ?_⟩
          intro q hq
          rcases List.mem_cons.mp hq with rfl | hq
          · exact hc
          · exact hall q hq
        · refine .inr ⟨p :: pre, v, suf, by rw [heq]; rfl, hv0, hv1, hmax, ?_, hsuf⟩
          intro q hq h0 h1
          rcases List.mem_cons.mp hq with rfl | hq
          · rcases not_and.mp hc h0 with h
            have hle : q.2 ≤ maxv := le_of_not_lt (fun hgt => (not_and.mp h h1) hgt)
            exact lt_of_le_of_lt hle hmax
          · exact hpre q hq h0 h1

/-- all_binary_check is the pointwise test for exact 0/1 values. -/
theorem all_binary_check_iff (A : Assignment) :
    all_binary_check A = true ↔ ∀ p ∈ A, p.2 = 0 ∨ p.2 = 1 := by
  simp [all_binary_check, List.all_eq_true]

/-- C6: for every assignment with all values in [0, 1],
find_next_branch_var returns none exactly when every value is 0 or 1 (the
code's own all_binary_check); and when it returns a variable b, b occurs in
the assignment at a strictly fractional value v such that every fractional
value occurring before b is strictly below v and every fractional value
after b is at most v — that is, b is the first occurrence of the largest
fractional value.  Determinism is inherent: the embedding is a pure
function of the assignment. -/
theorem find_next_branch_var_correct (A : Assignment)
    (h : ∀ p ∈ A, 0 ≤ p.2 ∧ p.2 ≤ 1) :
    (find_next_branch_var A = none ↔ all_binary_check A = true) ∧
    (∀ b, find_next_branch_var A = some b →
      ∃ pre v suf, A = pre ++ (b, v) :: suf ∧ 0 < v ∧ v < 1 ∧
        (∀ p ∈ pre, 0 < p.2 → p.2 < 1 → p.2 < v) ∧
        (∀ p ∈ suf, 0 < p.2 → p.2 < 1 → p.2 ≤ v)) := by
  constructor
  · rw [find_next_branch_var, findAux_eq_none_iff, all_binary_check_iff]
    constructor
    · rintro ⟨-, hall⟩ p hp
      rcases h p hp with ⟨h0, h1⟩
      have hnf := hall p hp
      by_cases hz : p.2 = 0
      · exact .inl hz
      · right
        have hpos : 0 < p.2 := lt_of_le_of_ne h0 (Ne.symm hz)
        by_contra hne
        have hlt : p.2 < 1 := lt_of_le_of_ne h1 hne
        exact hnf ⟨hpos, hlt, lt_trans (by norm_num) hpos⟩
    · intro hall
      refine ⟨rfl, ?_⟩
      rintro p hp ⟨h0, h1, -⟩
      rcases hall p hp with hz | ho
      · exact absurd hz (ne_of_gt h0)
      · exact absurd ho (ne_of_lt h1)
  · intro b hb
    rcases findAux_eq_some A none (-1) b hb with ⟨hcontra, -⟩ | ⟨pre, v, suf, heq, hv0, hv1, -, hpre, hsuf⟩
    · exact absurd hcontra (by simp)
    · exact ⟨pre, v, suf, heq, hv0, hv1, hpre, hsuf⟩

/-- Witness for C6 at the concrete assignment x1 = 1/2, x2 = 3/4 (where the
selected variable is x2, the largest fractional value). -/
theorem find_next_branch_var_correct_witness :
    (∀ p ∈ ([("x1", mkRat 1 2), ("x2", mkRat 3 4)] : Assignment), 0 ≤ p.2 ∧ p.2 ≤ 1) ∧
    ((find_next_branch_var [("x1", mkRat 1 2), ("x2", mkRat 3 4)] = none ↔
        all_binary_check [("x1", mkRat 1 2), ("x2", mkRat 3 4)] = true) ∧
     (∀ b, find_next_branch_var [("x1", mkRat 1 2), ("x2", mkRat 3 4)] = some b →
        ∃ pre v suf,
          ([("x1", mkRat 1 2), ("x2", mkRat 3 4)] : Assignment) = pre ++ (b, v) :: suf ∧
          0 < v ∧ v < 1 ∧
          (∀ p ∈ pre, 0 < p.2 → p.2 < 1 → p.2 < v) ∧
          (∀ p ∈ suf, 0 < p.2 → p.2 < 1 → p.2 ≤ v))) :=
  ⟨by decide, find_next_branch_var_correct _ (by decide)⟩

/-! ### Child generation case analysis: closed evaluations -/

/-- C1: evaluation of generate_left_child_node at the three parent-value
cases.  With a fractional parent value or an absent one the branch variable
is fixed to bounds [1, 1] binary-typed, as the claim states; but with parent
value exactly 0 the guard 0 <= value <= 1 also fires, so the branch variable
is again fixed to [1, 1] binary — not to [0, 0] as the claim (and the
unreachable elif branch of the code itself) states. -/
theorem left_child_zero_case_eval :
    ((generate_left_child_node m2 oracle1 [5, 4] [[6, 4], [1, 2]] ["<=", "<="] [24, 6]
        ["x1", "x2"] (some "x1") [("x1", mkRat 1 2), ("x2", mkRat 1 2)]).toOption.map
        fun p => p.2.vars) =
      some [⟨ "x1", 1, 1, .binary⟩, ⟨ "x2", 0, 1, .continuous⟩] ∧
    ((generate_left_child_node m2 oracle1 [5, 4] [[6, 4], [1, 2]] ["<=", "<="] [24, 6]
        ["x1", "x2"] (some "x1") []).toOption.map fun p => p.2.vars) =
      some [⟨ "x1", 1, 1, .binary⟩, ⟨ "x2", 0, 1, .continuous⟩] ∧
    ((generate_left_child_node m2 oracle1 [5, 4] [[6, 4], [1, 2]] ["<=", "<="] [24, 6]
        ["x1", "x2"] (some "x1") [("x1", 0), ("x2", mkRat 1 2)]).toOption.map
        fun p => p.2.vars) =
      some [⟨ "x1", 1, 1, .binary⟩, ⟨ "x2", 0, 1, .continuous⟩] ∧
    VarSpec.mk "x1" 1 1 .binary ≠ VarSpec.mk "x1" 0 0 .binary := by decide

/-- C7: evaluation of generate_right_child_node at the four parent-value
cases.  Fractional-or-absent fixes the branch variable to [0, 0]
binary-typed as claimed, and a value outside [0, 1] raises the ValueError
modelled by valueErrorValue as claimed; but parent value exactly 1 gives
[0, 0] BINARY-typed (the claim says continuous-typed), and parent value
exactly 0 also gives [0, 0] binary (the claim says [1, 1] binary): the
non-strict guard captures both before the elif branches can. -/
theorem right_child_cases_eval :
    ((generate_right_child_node m2 oracle1 [5, 4] [[6, 4], [1, 2]] ["<=", "<="] [24, 6]
        ["x1", "x2"] (some "x1") [("x1", mkRat 1 2), ("x2", mkRat 1 2)]).toOption.map
        fun p => p.2.vars) =
      some [⟨ "x1", 0, 0, .binary⟩, ⟨ "x2", 0, 1, .continuous⟩] ∧
    ((generate_right_child_node m2 oracle1 [5, 4] [[6, 4], [1, 2]] ["<=", "<="] [24, 6]
        ["x1", "x2"] (some "x1") [("x1", 1), ("x2", mkRat 1 2)]).toOption.map
        fun p => p.2.vars) =
      some [⟨ "x1", 0, 0, .binary⟩, ⟨ "x2", 0, 1, .continuous⟩] ∧
    ((generate_right_child_node m2 oracle1 [5, 4] [[6, 4], [1, 2]] ["<=", "<="] [24, 6]
        ["x1", "x2"] (some "x1") [("x1", 0), ("x2", mkRat 1 2)]).toOption.map
        fun p => p.2.vars) =
      some [⟨ "x1", 0, 0, .binary⟩, ⟨ "x2", 0, 1, .continuous⟩] ∧
    generate_right_child_node m2 oracle1 [5, 4] [[6, 4], [1, 2]] ["<=", "<="] [24, 6]
        ["x1", "x2"] (some "x1") [("x1", 5), ("x2", mkRat 1 2)] =
      .error (.valueErrorValue "x1") ∧
    VarSpec.mk "x1" 0 0 .binary ≠ VarSpec.mk "x1" 0 0 .continuous ∧
    VarSpec.mk "x1" 0 0 .binary ≠ VarSpec.mk "x1" 1 1 .binary := by decide

/-- C3: infeasible oracle responses crash the drivers with AttributeError
instead of being recorded.  On m3 the root LP is infeasible: both solve and
the tree builder abort with AttributeError (raised by iterating
"infeasible".items()), returning no result at all instead of an empty
result with the root recorded.  On m4 the root is feasible and a later
left child is infeasible: the run aborts with the same AttributeError at
the admission check instead of recording the child and continuing — the
events show a root expansion and one admission had already happened. -/
theorem infeasible_crash_eval :
    (solve_branch_and_bound m3 oracle3 5).out = .err .attributeError ∧
    (solve_branch_and_bound m3 oracle3 5).trace.length = 2 ∧
    create_branch_and_bound_tree m3 oracle3 5 = .err .attributeError ∧
    (solve_branch_and_bound m4 oracle4 10).out = .err .attributeError ∧
    (solve_branch_and_bound m4 oracle4 10).events =
      [Event.genCall [("x1", 0)] [("x1", 0)],
       Event.admitLeft [("x1", 0)] [("x1", mkRat 1 2)] [("x1", 0)]] := by decide

/-- C2 counterexample: on m1 the root node assignment x1 = 1 is integral
(all_binary_check holds and the branching rule returns none), yet the
driver still expands it: a generate_child_nodes call for it is on record
and the trace holds 4 oracle calls — the pre-root relaxation, the root,
and TWO further calls made while expanding the integral root. -/
theorem integral_leaf_expanded_cex :
    all_binary_check [("x1", 1)] = true ∧
    find_next_branch_var [("x1", 1)] = none ∧
    Event.genCall [("x1", 1)] [("x1", 1)] ∈ (solve_branch_and_bound m1 oracle1 5).events ∧
    (solve_branch_and_bound m1 oracle1 5).trace.length = 4 ∧
    (solve_branch_and_bound m1 oracle1 5).out = .ok [[("x1", 1)]] := by decide

/-- C10 counterexample: on m1 the integral root reproduces its own
assignment as both children, so the tree builder adds a self-loop edge on
the root: the returned graph has the root key as its first (and only)
node and the root in-degree is 1, not 0. -/
theorem root_indeg_cex :
    create_branch_and_bound_tree m1 oracle1 5 =
      .ok (⟨[([("x1", 1)], some 1)], [([("x1", 1)], [("x1", 1)])]⟩,
           [[("x1", 1)], [("x1", 1)]]) ∧
    (Graph.mk [([("x1", 1)], some 1)] [([("x1", 1)], [("x1", 1)])]).inDeg [("x1", 1)] = 1 := by
  decide

/-- C5 counterexample: m5 declares two binary variables but its single
constraint row holds one coefficient.  No error of any kind is raised:
extraction succeeds, the run completes normally, and 4 oracle calls are
made — the mismatched row is silently zip-truncated. -/
theorem row_mismatch_no_error_cex :
    m5.extract_coefficients = .ok ([1, 1], [[1]], ["<="], [1]) ∧
    m5.binary_vars.length = 2 ∧
    (solve_branch_and_bound m5 oracle1 6).out = .ok [[("x1", 1), ("x2", 1)]] ∧
    (solve_branch_and_bound m5 oracle1 6).trace.length = 4 := by decide

/-! ### Expansion of integral nodes (C2 amended): helper lemmas -/

/-- mapM of a function that always succeeds is ok of the map. -/
theorem mapM_ok_map {α β : Type} (f : α → β) :
    ∀ l : List α, (l.mapM fun a => (Except.ok (f a) : Except PyError β)) = .ok (l.map f)
  | [] => rfl
  | a :: l => by
      simp only [List.mapM_cons, mapM_ok_map f l, List.map_cons]
      rfl

/-- An assignment passing all_binary_check has no strictly fractional value,
so the branching rule returns none on it. -/
theorem find_eq_none_of_all_binary {A : Assignment} (h : all_binary_check A = true) :
    find_next_branch_var A = none := by
  rw [find_next_branch_var, findAux_eq_none_iff]
  refine ⟨rfl, ?_⟩
  rintro p hp ⟨h0, h1, -⟩
  rcases (all_binary_check_iff A).mp h p hp with hz | ho
  · exact absurd hz (ne_of_gt h0)
  · exact absurd ho (ne_of_lt h1)

/-- With branch variable None no name matches, so every variable of the left
request is declared continuous with bounds [0, 1]. -/
theorem generate_left_none_vars (m : Model) (o : Oracle) (objc : List ℤ)
    (rows : List (List ℤ)) (ops : List String) (rhs : List ℤ) (names : List String)
    (ref : Assignment) (n : Node) (req : LPRequest)
    (h : generate_left_child_node m o objc rows ops rhs names none ref = .ok (n, req)) :
    req.vars = names.map fun v => VarSpec.mk v 0 1 .continuous := by
  rw [generate_left_child_node] at h
  have hfun : (fun var_name =>
      if some var_name = (none : Option String) then
        leftBranchVarSpec var_name (List.lookup var_name ref)
      else .ok (VarSpec.mk var_name 0 1 .continuous)) =
      fun v => (Except.ok (VarSpec.mk v 0 1 .continuous) : Except PyError VarSpec) := by
    funext v
    exact if_neg (by simp)
  rw [hfun, mapM_ok_map] at h
  simp only [bind, Except.bind] at h
  cases hb : buildConstraints rows ops rhs names with
  | error e => rw [hb] at h; exact absurd h (by simp)
  | ok cs =>
      rw [hb] at h
      simp only [pure, Except.pure, Except.ok.injEq, Prod.mk.injEq] at h
      rw [← h.2]

/-- With branch variable None no name matches, so every variable of the right
request is declared continuous with bounds [0, 1]. -/
theorem generate_right_none_vars (m : Model) (o : Oracle) (objc : List ℤ)
    (rows : List (List ℤ)) (ops : List String) (rhs : List ℤ) (names : List String)
    (ref : Assignment) (n : Node) (req : LPRequest)
    (h : generate_right_child_node m o objc rows ops rhs names none ref = .ok (n, req)) :
    req.vars = names.map fun v => VarSpec.mk v 0 1 .continuous := by
  rw [generate_right_child_node] at h
  have hfun : (fun var_name =>
      if some var_name = (none : Option String) then
        rightBranchVarSpec var_name (List.lookup var_name ref)
      else .ok (VarSpec.mk var_name 0 1 .continuous)) =
      fun v => (Except.ok (VarSpec.mk v 0 1 .continuous) : Except PyError VarSpec) := by
    funext v
    exact if_neg (by simp)
  rw [hfun, mapM_ok_map] at h
  simp only [bind, Except.bind] at h
  cases hb : buildConstraints rows ops rhs names with
  | error e => rw [hb] at h; exact absurd h (by simp)
  | ok cs =>
      rw [hb] at h
      simp only [pure, Except.pure, Except.ok.injEq, Prod.mk.injEq] at h
      rw [← h.2]

/-- Splitting a successful generate_child_nodes call into its extraction and
its two generator calls. -/
theorem generate_child_nodes_parts (m : Model) (o : Oracle) (dv : Assignment)
    (nb : Option String) (ref : Assignment) (l : Node) (lreq : LPRequest)
    (r : Node) (rreq : LPRequest)
    (h : generate_child_nodes m o dv nb ref = .ok (l, lreq, r, rreq)) :
    ∃ objc rows ops rhs, m.extract_coefficients = .ok (objc, rows, ops, rhs) ∧
      generate_left_child_node m o objc rows ops rhs (dv.map Prod.fst) nb ref = .ok (l, lreq) ∧
      generate_right_child_node m o objc rows ops rhs (dv.map Prod.fst) nb ref = .ok (r, rreq) := by
  rw [generate_child_nodes] at h
  simp only [bind, Except.bind] at h
  cases he : m.extract_coefficients with
  | error e => rw [he] at h; exact absurd h (by simp)
  | ok parts =>
      obtain ⟨objc, rows, ops, rhs⟩ := parts
      rw [he] at h
      dsimp only at h
      refine ⟨objc, rows, ops, rhs, rfl, ?_⟩
      cases hl : generate_left_child_node m o objc rows ops rhs (dv.map Prod.fst) nb ref with
      | error e => rw [hl] at h; exact absurd h (by simp)
      | ok lp =>
          obtain ⟨l1, lreq1⟩ := lp
          rw [hl] at h
          cases hr : generate_right_child_node m o objc rows ops rhs (dv.map Prod.fst) nb ref with
          | error e => rw [hr] at h; exact absurd h (by simp)
          | ok rp =>
              obtain ⟨r1, rreq1⟩ := rp
              rw [hr] at h
              simp only [pure, Except.pure, Except.ok.injEq, Prod.mk.injEq] at h
              obtain ⟨rfl, rfl, rfl, rfl⟩ := h
              exact ⟨rfl, rfl⟩

/-- C2 (amended): a popped frontier node whose assignment is integral is NOT
treated as a leaf.  The branching rule does return none on it, but the loop
body still calls generate_child_nodes and submits two further LP requests to
the oracle for that node; since no variable name equals the None branch
variable, those requests fix nothing (every variable continuous in [0, 1]).
Only the visited-set admission check keeps the resulting duplicate children
from being re-queued. -/
theorem integral_node_expansion (m : Model) (oracle : Oracle) (node : Node)
    (ref : Assignment) (st st1 : FlatState) (dv : Assignment)
    (hvars : node.vars = some dv) (hbin : all_binary_check dv = true)
    (hstep : flatStep m oracle (node, ref) st = .ok st1) :
    find_next_branch_var dv = none ∧
    ∃ lreq rreq, st1.trace = st.trace ++ [lreq, rreq] ∧
      (∀ s ∈ lreq.vars, s.lb = 0 ∧ s.ub = 1 ∧ s.vtype = .continuous) ∧
      (∀ s ∈ rreq.vars, s.lb = 0 ∧ s.ub = 1 ∧ s.vtype = .continuous) := by
  have hnone := find_eq_none_of_all_binary hbin
  refine ⟨hnone, ?_⟩
  rw [flatStep] at hstep
  simp only [hvars, items?, bind, Except.bind, hnone] at hstep
  cases hg : generate_child_nodes m oracle dv none ref with
  | error e => rw [hg] at hstep; exact absurd hstep (by simp)
  | ok quad =>
      obtain ⟨l, lreq, r, rreq⟩ := quad
      obtain ⟨objc, rows, ops, rhs, hext, hl, hr⟩ :=
        generate_child_nodes_parts _ _ _ _ _ _ _ _ _ hg
      have hLvars := generate_left_none_vars _ _ _ _ _ _ _ _ _ _ hl
      have hRvars := generate_right_none_vars _ _ _ _ _ _ _ _ _ _ hr
      rw [hg] at hstep
      dsimp only at hstep
      refine ⟨lreq, rreq, ?_, ?_, ?_⟩
      · cases hlv : l.vars with
        | none => rw [hlv] at hstep; exact absurd hstep (by simp [items?])
        | some lk =>
            rw [hlv] at hstep
            simp only [items?] at hstep
            cases hrv : r.vars with
            | none => rw [hrv] at hstep; exact absurd hstep (by simp [items?])
            | some rk =>
                rw [hrv] at hstep
                simp only [items?, pure, Except.pure, Except.ok.injEq] at hstep
                rw [← hstep]
      · intro s hs
        rw [hLvars] at hs
        obtain ⟨v, -, rfl⟩ := List.mem_map.mp hs
        exact ⟨rfl, rfl, rfl⟩
      · intro s hs
        rw [hRvars] at hs
        obtain ⟨v, -, rfl⟩ := List.mem_map.mp hs
        exact ⟨rfl, rfl, rfl⟩

/-- Witness for integral_node_expansion: one concrete loop iteration of the
m1 search popping the integral root node x1 = 1. -/
theorem integral_node_expansion_witness :
    ((⟨some 1, some [("x1", 1)]⟩ : Node).vars = some [("x1", 1)] ∧
     all_binary_check [("x1", 1)] = true ∧
     flatStep m1 oracle1 (⟨some 1, some [("x1", 1)]⟩, [("x1", 1)])
        ⟨[], [[("x1", 1)]], [], []⟩ =
       .ok ⟨[], [[("x1", 1)]],
         [⟨true, [(1, "x1")], [⟨[(1, "x1")], "<=", 1⟩], [⟨ "x1", 0, 1, .continuous⟩]⟩,
          ⟨true, [(1, "x1")], [⟨[(1, "x1")], "<=", 1⟩], [⟨ "x1", 0, 1, .continuous⟩]⟩],
         [Event.genCall [("x1", 1)] [("x1", 1)]]⟩) ∧
    (find_next_branch_var [("x1", 1)] = none ∧
     ∃ lreq rreq,
       (FlatState.mk [] [[("x1", 1)]]
         [⟨true, [(1, "x1")], [⟨[(1, "x1")], "<=", 1⟩], [⟨ "x1", 0, 1, .continuous⟩]⟩,
          ⟨true, [(1, "x1")], [⟨[(1, "x1")], "<=", 1⟩], [⟨ "x1", 0, 1, .continuous⟩]⟩]
         [Event.genCall [("x1", 1)] [("x1", 1)]]).trace =
         (FlatState.mk [] [[("x1", 1)]] [] []).trace ++ [lreq, rreq] ∧
       (∀ s ∈ lreq.vars, s.lb = 0 ∧ s.ub = 1 ∧ s.vtype = .continuous) ∧
       (∀ s ∈ rreq.vars, s.lb = 0 ∧ s.ub = 1 ∧ s.vtype = .continuous)) :=
  ⟨⟨rfl, by decide, by decide⟩,
   integral_node_expansion m1 oracle1 ⟨some 1, some [("x1", 1)]⟩ [("x1", 1)]
     (FlatState.mk [] [[("x1", 1)]] [] [])
     (FlatState.mk [] [[("x1", 1)]]
       [⟨true, [(1, "x1")], [⟨[(1, "x1")], "<=", 1⟩], [⟨ "x1", 0, 1, .continuous⟩]⟩,
        ⟨true, [(1, "x1")], [⟨[(1, "x1")], "<=", 1⟩], [⟨ "x1", 0, 1, .continuous⟩]⟩]
       [Event.genCall [("x1", 1)] [("x1", 1)]])
     [("x1", 1)] rfl (by decide) (by decide)⟩

/-! ### Model validation behaviour (C5 amended): helper lemmas -/

/-- Extraction produces one row, one operator and one right-hand side per
constraint, so the three lists always have equal length. -/
theorem extract_lengths (m : Model) (objc : List ℤ) (rows : List (List ℤ))
    (ops : List String) (rhs : List ℤ)
    (h : m.extract_coefficients = .ok (objc, rows, ops, rhs)) :
    rows.length = ops.length ∧ rhs.length = ops.length := by
  rw [Model.extract_coefficients] at h
  simp only [bind, Except.bind] at h
  cases hp : m.constraints.mapM extractConstraint with
  | error e => rw [hp] at h; exact absurd h (by simp)
  | ok parts =>
      rw [hp] at h
      simp only [pure, Except.pure, Except.ok.injEq, Prod.mk.injEq] at h
      obtain ⟨-, h1, h2, h3⟩ := h
      rw [← h1, ← h2, ← h3]
      simp

/-- An unrecognized operator in the zipped range makes the constraint loop
raise: given the three lists have equal length, any listed invalid operator
is reached unless an earlier one raises first. -/
theorem buildConstraints_error_of_bad_op :
    ∀ (ops : List String) (rows : List (List ℤ)) (rhs : List ℤ) (names : List String)
      (op : String), rows.length = ops.length → rhs.length = ops.length → op ∈ ops →
      ¬(op = "<=" ∨ op = ">=" ∨ op = "==") →
      ∃ e, buildConstraints rows ops rhs names = .error e
  | [], _, _, _, _, _, _, hmem, _ => absurd hmem (by simp)
  | o :: ops, rows, rhs, names, op, hlr, hlv, hmem, hbad => by
      cases rows with
      | nil => exact absurd hlr (by simp)
      | cons row rows =>
          cases rhs with
          | nil => exact absurd hlv (by simp)
          | cons rv rvs =>
              by_cases ho : o = "<=" ∨ o = ">=" ∨ o = "=="
              · have hop : op ∈ ops := by
                  rcases List.mem_cons.mp hmem with rfl | h
                  · exact absurd ho hbad
                  · exact h
                obtain ⟨e, he⟩ := buildConstraints_error_of_bad_op ops rows rvs names op
                  (by simpa using hlr) (by simpa using hlv) hop hbad
                refine ⟨e, ?_⟩
                rw [buildConstraints, if_pos ho]
                simp only [bind, Except.bind, he]
              · exact ⟨.valueErrorOperator o, by rw [buildConstraints, if_neg ho]⟩

/-- When every listed operator is recognized the constraint loop succeeds,
whatever the row lengths: nothing checks them. -/
theorem buildConstraints_ok_of_ops :
    ∀ (ops : List String) (rows : List (List ℤ)) (rhs : List ℤ) (names : List String),
      (∀ op ∈ ops, op = "<=" ∨ op = ">=" ∨ op = "==") →
      ∃ cs, buildConstraints rows ops rhs names = .ok cs
  | [], rows, rhs, names, _ => by
      cases rows with
      | nil => exact ⟨[], rfl⟩
      | cons row rows =>
          cases rhs with
          | nil => exact ⟨[], rfl⟩
          | cons rv rvs => exact ⟨[], rfl⟩
  | o :: ops, rows, rhs, names, hall => by
      cases rows with
      | nil => exact ⟨[], rfl⟩
      | cons row rows =>
          cases rhs with
          | nil => exact ⟨[], rfl⟩
          | cons rv rvs =>
              obtain ⟨cs, hcs⟩ := buildConstraints_ok_of_ops ops rows rvs names
                (fun op h => hall op (List.mem_cons_of_mem _ h))
              refine ⟨⟨zipExpr row names, o, rv⟩ :: cs, ?_⟩
              rw [buildConstraints, if_pos (hall o (by simp))]
              simp only [bind, Except.bind, hcs, pure, Except.pure]

/-- A failing constraint loop makes lp_relaxation fail before any oracle
call. -/
theorem lp_relaxation_error_of_buildConstraints (oracle : Oracle) (set_obj : String)
    (rows : List (List ℤ)) (ops : List String) (rhs : List ℤ) (names : List String)
    (e : PyError) (h : buildConstraints rows ops rhs names = .error e) :
    lp_relaxation oracle set_obj rows ops rhs names = .error e := by
  rw [lp_relaxation, lp_relaxation_request]
  simp only [bind, Except.bind, h]

/-- C5 (amended): malformed operators and unparseable right-hand sides do
abort the run before any oracle call, but with a ValueError or IndexError
(the code has no ModelError class), and a coefficient-row length mismatch is
not detected at all.  Precisely: (i) if extraction succeeds but lists an
operator outside the three recognized symbols, solve raises before any
oracle call (empty trace); (ii) if extraction itself fails — as it does for
a right-hand side the regex cannot read — solve re-raises that error with
an empty trace; (iii) if every listed operator is recognized, the pre-root
request construction succeeds whatever the row lengths, declaring one
variable per binary variable — mismatched rows are silently zip-truncated,
and the oracle is then called. -/
theorem model_validation_behavior :
    (∀ (m : Model) (oracle : Oracle) (fuel : ℕ) (objc : List ℤ) (rows : List (List ℤ))
       (ops : List String) (rhs : List ℤ) (op : String),
      m.extract_coefficients = .ok (objc, rows, ops, rhs) → op ∈ ops →
      ¬(op = "<=" ∨ op = ">=" ∨ op = "==") →
      (solve_branch_and_bound m oracle fuel).trace = [] ∧
      ∃ e, (solve_branch_and_bound m oracle fuel).out = .err e) ∧
    (∀ (m : Model) (oracle : Oracle) (fuel : ℕ) (e : PyError),
      m.extract_coefficients = .error e →
      (solve_branch_and_bound m oracle fuel).trace = [] ∧
      (solve_branch_and_bound m oracle fuel).out = .err e) ∧
    (∀ (set_obj : String) (rows : List (List ℤ)) (ops : List String) (rhs : List ℤ)
       (names : List String),
      (∀ op ∈ ops, op = "<=" ∨ op = ">=" ∨ op = "==") →
      ∃ req, lp_relaxation_request set_obj rows ops rhs names = .ok req ∧
        req.vars.length = names.length) := by
  refine ⟨?_, ?_, ?_⟩
  · intro m oracle fuel objc rows ops rhs op hext hmem hbad
    obtain ⟨hlr, hlv⟩ := extract_lengths m objc rows ops rhs hext
    obtain ⟨e, he⟩ := buildConstraints_error_of_bad_op ops rows rhs m.binary_vars op hlr hlv hmem hbad
    have hlp := lp_relaxation_error_of_buildConstraints oracle m.set_obj rows ops rhs
      m.binary_vars e he
    rw [solve_branch_and_bound, hext]
    dsimp only
    rw [hlp]
    exact ⟨rfl, e, rfl⟩
  · intro m oracle fuel e hext
    rw [solve_branch_and_bound, hext]
    exact ⟨rfl, rfl⟩
  · intro set_obj rows ops rhs names hall
    obtain ⟨cs, hcs⟩ := buildConstraints_ok_of_ops ops rows rhs names hall
    refine ⟨⟨set_obj = "MAXIMIZE", rows.flatMap fun row => zipExpr row names, cs,
      names.map fun n => VarSpec.mk n 0 1 .continuous⟩, ?_, by simp⟩
    rw [lp_relaxation_request]
    simp only [bind, Except.bind, hcs, pure, Except.pure]

/-- Witness for model_validation_behavior: on m6 (operator "<") the run
aborts with an error before any oracle call. -/
theorem model_validation_behavior_witness :
    (m6.extract_coefficients = .ok ([1], [[1]], ["<"], [1]) ∧
     ("<" : String) ∈ ["<"] ∧ ¬(("<" : String) = "<=" ∨ ("<" : String) = ">=" ∨ ("<" : String) = "==")) ∧
    ((solve_branch_and_bound m6 oracle1 5).trace = [] ∧
     ∃ e, (solve_branch_and_bound m6 oracle1 5).out = .err e) :=
  ⟨⟨by decide, by decide, by decide⟩,
   model_validation_behavior.1 m6 oracle1 5 [1] [[1]] ["<"] [1] "<"
     (by decide) (by decide) (by decide)⟩

/-! ### Pre-root relaxation objective (C4): helper lemmas -/

/-- exprCoeff distributes over concatenation of term lists. -/
theorem exprCoeff_append (e1 e2 : List (ℚ × String)) (name : String) :
    exprCoeff (e1 ++ e2) name = exprCoeff e1 name + exprCoeff e2 name := by
  simp [exprCoeff, List.filter_append]

/-- A variable mentioned by no term has coefficient 0. -/
theorem exprCoeff_eq_zero (e : List (ℚ × String)) (name : String)
    (h : ∀ t ∈ e, t.2 ≠ name) : exprCoeff e name = 0 := by
  rw [exprCoeff, List.filter_eq_nil_iff.mpr]
  · rfl
  · intro t ht
    simpa using h t ht

/-- Every term zipExpr builds names one of the zipped variables. -/
theorem zipExpr_snd_mem : ∀ (row : List ℤ) (names : List String) (t : ℚ × String),
    t ∈ zipExpr row names → t.2 ∈ names
  | c :: cs, n :: ns, t, ht => by
      rcases List.mem_cons.mp ht with rfl | ht
      · simp
      · exact List.mem_cons_of_mem _ (zipExpr_snd_mem cs ns t ht)

/-- Over duplicate-free names, the coefficient zipExpr gives the j-th
variable is the j-th row entry (0 when the row is shorter). -/
theorem exprCoeff_zipExpr : ∀ (names : List String) (row : List ℤ), names.Nodup →
    ∀ j, j < names.length →
      exprCoeff (zipExpr row names) (names.getD j "") = ((row.getD j 0 : ℤ) : ℚ)
  | [], _, _, j, hj => absurd hj (by simp)
  | n :: ns, [], _, j, hj => by
      show exprCoeff [] ((n :: ns).getD j "") = ((([] : List ℤ).getD j 0 : ℤ) : ℚ)
      simp [exprCoeff, List.getD]
  | n :: ns, c :: cs, hnd, 0, hj => by
      show exprCoeff (((c : ℚ), n) :: zipExpr cs ns) n = ((c : ℤ) : ℚ)
      have hz : exprCoeff (zipExpr cs ns) n = 0 := by
        refine exprCoeff_eq_zero _ _ ?_
        intro t ht hn
        exact (List.nodup_cons.mp hnd).1 (hn ▸ zipExpr_snd_mem cs ns t ht)
      simp [exprCoeff, List.filter_cons] at hz ⊢
      simpa [exprCoeff] using hz
  | n :: ns, c :: cs, hnd, j + 1, hj => by
      show exprCoeff (((c : ℚ), n) :: zipExpr cs ns) ((n :: ns).getD (j + 1) "") =
        ((cs.getD j 0 : ℤ) : ℚ)
      have hjlt : j < ns.length := by simpa using hj
      have hgd : (n :: ns).getD (j + 1) "" = ns.getD j "" := rfl
      have hmem : ns.getD j "" ∈ ns := by
        rw [List.getD_eq_getElem ns "" hjlt]
        exact List.getElem_mem hjlt
      have hne : ((((c : ℚ), n)).2 == ns.getD j "") = false := by
        simp only [beq_eq_false_iff_ne]
        exact fun hn => (List.nodup_cons.mp hnd).1 (hn ▸ hmem)
      have ih := exprCoeff_zipExpr ns cs (List.nodup_cons.mp hnd).2 j hjlt
      rw [hgd, exprCoeff, List.filter_cons, hne]
      rw [exprCoeff] at ih
      simpa using ih

/-- The coefficient the flattened double quicksum gives the j-th variable is
the sum over all rows of their j-th entries. -/
theorem exprCoeff_flatMap (names : List String) (hnd : names.Nodup)
    (j : ℕ) (hj : j < names.length) : ∀ rows : List (List ℤ),
    exprCoeff (rows.flatMap fun row => zipExpr row names) (names.getD j "") =
      (rows.map fun row => ((row.getD j 0 : ℤ) : ℚ)).sum
  | [] => by simp [exprCoeff]
  | row :: rows => by
      rw [List.flatMap_cons, exprCoeff_append, exprCoeff_zipExpr names row hnd j hj,
        exprCoeff_flatMap names hnd j hj rows, List.map_cons, List.sum_cons]

/-- C4 (amended): the pre-root LP request built by lp_relaxation is fully
relaxed — every binary variable continuous with bounds [0, 1], nothing fixed
— it carries the direction of the model, and only its assignment is used
(lp_relaxation returns the assignment alone).  But its objective is NOT the
model objective: solve passes the constraint coefficient rows, and the
double quicksum gives each variable the SUM of its coefficients over all
constraint rows (rows shorter than the variable list contribute 0 for the
missing positions). -/
theorem preroot_request_characterization (set_obj : String) (rows : List (List ℤ))
    (ops : List String) (rhs : List ℤ) (names : List String) (req : LPRequest)
    (h : lp_relaxation_request set_obj rows ops rhs names = .ok req) :
    req.vars = (names.map fun n => VarSpec.mk n 0 1 .continuous) ∧
    (req.maximize = true ↔ set_obj = "MAXIMIZE") ∧
    (names.Nodup → ∀ j, j < names.length →
      exprCoeff req.objective (names.getD j "") =
        (rows.map fun row => ((row.getD j 0 : ℤ) : ℚ)).sum) := by
  rw [lp_relaxation_request] at h
  simp only [bind, Except.bind] at h
  cases hb : buildConstraints rows ops rhs names with
  | error e => rw [hb] at h; exact absurd h (by simp)
  | ok cs =>
      rw [hb] at h
      simp only [pure, Except.pure, Except.ok.injEq] at h
      subst h
      refine ⟨rfl, by simp, ?_⟩
      intro hnd j hj
      exact exprCoeff_flatMap names hnd j hj rows

/-- C4 counterexample: on the specification scenario model m2, the model
objective coefficients are [5, 4] but the request solved before the root
gives x1 the objective coefficient 6 + 1 = 7 (the sum of its constraint
coefficients), not 5. -/
theorem preroot_objective_cex :
    m2.extract_coefficients = .ok ([5, 4], [[6, 4], [1, 2]], ["<=", "<="], [24, 6]) ∧
    ((lp_relaxation_request "MAXIMIZE" [[6, 4], [1, 2]] ["<=", "<="] [24, 6]
        ["x1", "x2"]).toOption.map fun req => req.objective) =
      some [(6, "x1"), (4, "x2"), (1, "x1"), (2, "x2")] ∧
    exprCoeff [((6 : ℚ), "x1"), (4, "x2"), (1, "x1"), (2, "x2")] "x1" = 7 ∧
    (5 : ℚ) ≠ 7 := by
  refine ⟨by decide, by decide, ?_, by norm_num⟩
  have hl : (([((6 : ℚ), "x1"), (4, "x2"), (1, "x1"), (2, "x2")].filter
      fun t => t.2 == "x1").map Prod.fst) = [6, 1] := by decide
  rw [exprCoeff, hl]
  norm_num [List.sum_cons, List.sum_nil]

/-- Witness for preroot_request_characterization at the m2 data. -/
theorem preroot_request_characterization_witness :
    (lp_relaxation_request "MAXIMIZE" [[6, 4], [1, 2]] ["<=", "<="] [24, 6] ["x1", "x2"] =
      .ok ⟨true, [(6, "x1"), (4, "x2"), (1, "x1"), (2, "x2")],
        [⟨[(6, "x1"), (4, "x2")], "<=", 24⟩, ⟨[(1, "x1"), (2, "x2")], "<=", 6⟩],
        [⟨ "x1", 0, 1, .continuous⟩, ⟨ "x2", 0, 1, .continuous⟩]⟩) ∧
    ((⟨true, [(6, "x1"), (4, "x2"), (1, "x1"), (2, "x2")],
        [⟨[(6, "x1"), (4, "x2")], "<=", 24⟩, ⟨[(1, "x1"), (2, "x2")], "<=", 6⟩],
        [⟨ "x1", 0, 1, .continuous⟩, ⟨ "x2", 0, 1, .continuous⟩]⟩ : LPRequest).vars =
      (["x1", "x2"].map fun n => VarSpec.mk n 0 1 .continuous) ∧
     ((⟨true, [(6, "x1"), (4, "x2"), (1, "x1"), (2, "x2")],
        [⟨[(6, "x1"), (4, "x2")], "<=", 24⟩, ⟨[(1, "x1"), (2, "x2")], "<=", 6⟩],
        [⟨ "x1", 0, 1, .continuous⟩, ⟨ "x2", 0, 1, .continuous⟩]⟩ : LPRequest).maximize = true ↔
        ("MAXIMIZE" : String) = "MAXIMIZE") ∧
     ((["x1", "x2"] : List String).Nodup → ∀ j, j < (["x1", "x2"] : List String).length →
        exprCoeff [((6 : ℚ), "x1"), (4, "x2"), (1, "x1"), (2, "x2")]
          ((["x1", "x2"] : List String).getD j "") =
          (([[6, 4], [1, 2]] : List (List ℤ)).map fun row => ((row.getD j 0 : ℤ) : ℚ)).sum)) :=
  ⟨by decide,
   preroot_request_characterization "MAXIMIZE" [[6, 4], [1, 2]] ["<=", "<="] [24, 6]
     ["x1", "x2"] _ (by decide)⟩

/-! ### Anatomy of one successful loop iteration -/

/-- A successful flat loop iteration, fully characterized: the popped node
held a dict, children were generated from it with the popped reference as
parent-value source, both children held dicts, the two requests were
traced and the generator call recorded, and each child was admitted
(queued and marked visited) exactly when unvisited — the left child
threaded with the popped reference, the right child with its own key.
The four admission combinations are listed explicitly. -/
theorem flatStep_ok_anatomy (m : Model) (oracle : Oracle) (node : Node) (ref : Assignment)
    (st st1 : FlatState) (h : flatStep m oracle (node, ref) st = .ok st1) :
    ∃ dv l lreq r rreq lk rk,
      node.vars = some dv ∧
      generate_child_nodes m oracle dv (find_next_branch_var dv) ref = .ok (l, lreq, r, rreq) ∧
      l.vars = some lk ∧ r.vars = some rk ∧
      ((lk ∈ st.visited ∧ rk ∈ st.visited ∧
          st1 = ⟨st.queue, st.visited, st.trace ++ [lreq, rreq],
            st.events ++ [Event.genCall dv ref]⟩) ∨
       (lk ∈ st.visited ∧ rk ∉ st.visited ∧
          st1 = ⟨st.queue ++ [(r, rk)], st.visited ++ [rk], st.trace ++ [lreq, rreq],
            (st.events ++ [Event.genCall dv ref]) ++ [Event.admitRight ref rk rk]⟩) ∨
       (lk ∉ st.visited ∧ rk ∈ st.visited ++ [lk] ∧
          st1 = ⟨st.queue ++ [(l, ref)], st.visited ++ [lk], st.trace ++ [lreq, rreq],
            (st.events ++ [Event.genCall dv ref]) ++ [Event.admitLeft ref lk ref]⟩) ∨
       (lk ∉ st.visited ∧ rk ∉ st.visited ++ [lk] ∧
          st1 = ⟨(st.queue ++ [(l, ref)]) ++ [(r, rk)], (st.visited ++ [lk]) ++ [rk],
            st.trace ++ [lreq, rreq],
            ((st.events ++ [Event.genCall dv ref]) ++ [Event.admitLeft ref lk ref])
              ++ [Event.admitRight ref rk rk]⟩)) := by
  rw [flatStep] at h
  cases hnv : node.vars with
  | none => rw [hnv] at h; exact absurd h (by simp [items?, bind, Except.bind])
  | some dv =>
      rw [hnv] at h
      simp only [items?, bind, Except.bind] at h
      cases hg : generate_child_nodes m oracle dv (find_next_branch_var dv) ref with
      | error e => rw [hg] at h; exact absurd h (by simp)
      | ok quad =>
          obtain ⟨l, lreq, r, rreq⟩ := quad
          rw [hg] at h
          dsimp only at h
          cases hlv : l.vars with
          | none => rw [hlv] at h; exact absurd h (by simp [items?])
          | some lk =>
              rw [hlv] at h
              simp only [items?] at h
              cases hrv : r.vars with
              | none => rw [hrv] at h; exact absurd h (by simp [items?])
              | some rk =>
                  rw [hrv] at h
                  simp only [items?, pure, Except.pure, Except.ok.injEq] at h
                  refine ⟨dv, l, lreq, r, rreq, lk, rk, rfl, hg, hlv, hrv, ?_⟩
                  by_cases hlk : lk ∈ st.visited
                  · simp only [hlk, if_true] at h
                    by_cases hrk : rk ∈ st.visited
                    · simp only [hrk, if_true] at h
                      exact .inl ⟨hlk, hrk, h.symm⟩
                    · simp only [hrk, if_false] at h
                      exact .inr (.inl ⟨hlk, hrk, h.symm⟩)
                  · simp only [hlk, if_false] at h
                    by_cases hrk : rk ∈ st.visited ++ [lk]
                    · simp only [hrk, if_true] at h
                      exact .inr (.inr (.inl ⟨hlk, hrk, h.symm⟩))
                    · simp only [hrk, if_false] at h
                      exact .inr (.inr (.inr ⟨hlk, hrk, h.symm⟩))

/-- A successful tree loop iteration, fully characterized: same pops and
child generation as the flat loop; both children always get a graph node
and an edge from the popped reference key, both child keys are appended to
the produced list, and each child is queued exactly when unvisited — the
left child tagged "left" with the popped reference, the right child tagged
"right" with its own key.  The four admission combinations are listed
explicitly. -/
theorem treeStep_ok_anatomy (m : Model) (oracle : Oracle) (node : Node) (ref : Assignment)
    (tag : String) (st st1 : TreeState) (h : treeStep m oracle (node, ref, tag) st = .ok st1) :
    ∃ dv l lreq r rreq lk rk,
      node.vars = some dv ∧
      generate_child_nodes m oracle dv (find_next_branch_var dv) ref = .ok (l, lreq, r, rreq) ∧
      l.vars = some lk ∧ r.vars = some rk ∧
      ((lk ∈ st.visited ∧ rk ∈ st.visited ∧
          st1 = ⟨st.queue, st.visited,
            (((st.graph.addNode lk l.obj).addEdge ref lk).addNode rk r.obj).addEdge ref rk,
            (st.produced ++ [lk]) ++ [rk]⟩) ∨
       (lk ∈ st.visited ∧ rk ∉ st.visited ∧
          st1 = ⟨st.queue ++ [(r, rk, "right")], st.visited ++ [rk],
            (((st.graph.addNode lk l.obj).addEdge ref lk).addNode rk r.obj).addEdge ref rk,
            (st.produced ++ [lk]) ++ [rk]⟩) ∨
       (lk ∉ st.visited ∧ rk ∈ st.visited ++ [lk] ∧
          st1 = ⟨st.queue ++ [(l, ref, "left")], st.visited ++ [lk],
            (((st.graph.addNode lk l.obj).addEdge ref lk).addNode rk r.obj).addEdge ref rk,
            (st.produced ++ [lk]) ++ [rk]⟩) ∨
       (lk ∉ st.visited ∧ rk ∉ st.visited ++ [lk] ∧
          st1 = ⟨(st.queue ++ [(l, ref, "left")]) ++ [(r, rk, "right")],
            (st.visited ++ [lk]) ++ [rk],
            (((st.graph.addNode lk l.obj).addEdge ref lk).addNode rk r.obj).addEdge ref rk,
            (st.produced ++ [lk]) ++ [rk]⟩)) := by
  rw [treeStep] at h
  cases hnv : node.vars with
  | none => rw [hnv] at h; exact absurd h (by simp [items?, bind, Except.bind])
  | some dv =>
      rw [hnv] at h
      simp only [items?, bind, Except.bind] at h
      cases hg : generate_child_nodes m oracle dv (find_next_branch_var dv) ref with
      | error e => rw [hg] at h; exact absurd h (by simp)
      | ok quad =>
          obtain ⟨l, lreq, r, rreq⟩ := quad
          rw [hg] at h
          dsimp only at h
          cases hlv : l.vars with
          | none => rw [hlv] at h; exact absurd h (by simp [items?])
          | some lk =>
              rw [hlv] at h
              simp only [items?] at h
              cases hrv : r.vars with
              | none => rw [hrv] at h; exact absurd h (by simp [items?])
              | some rk =>
                  rw [hrv] at h
                  simp only [items?, pure, Except.pure, Except.ok.injEq] at h
                  refine ⟨dv, l, lreq, r, rreq, lk, rk, rfl, hg, hlv, hrv, ?_⟩
                  by_cases hlk : lk ∈ st.visited
                  · simp only [hlk, if_true] at h
                    by_cases hrk : rk ∈ st.visited
                    · simp only [hrk, if_true] at h
                      exact .inl ⟨hlk, hrk, h.symm⟩
                    · simp only [hrk, if_false] at h
                      exact .inr (.inl ⟨hlk, hrk, h.symm⟩)
                  · simp only [hlk, if_false] at h
                    by_cases hrk : rk ∈ st.visited ++ [lk]
                    · simp only [hrk, if_true] at h
                      exact .inr (.inr (.inl ⟨hlk, hrk, h.symm⟩))
                    · simp only [hrk, if_false] at h
                      exact .inr (.inr (.inr ⟨hlk, hrk, h.symm⟩))

/-! ### Reference-assignment threading (C9) -/

/-- Membership in the result of the two conditional admissions appended to a
base list (the common shape of the queue, visited and event updates of one
loop iteration). -/
theorem mem_chain2 {α : Type _} {c1 c2 : Prop} [Decidable c1] [Decidable c2]
    {x : α} {base Y1 Y2 : List α} :
    (x ∈ (if c2 then (if c1 then base else base ++ Y1)
          else (if c1 then base else base ++ Y1) ++ Y2)) ↔
      x ∈ base ∨ (¬c1 ∧ x ∈ Y1) ∨ (¬c2 ∧ x ∈ Y2) := by
  by_cases h1 : c1 <;> by_cases h2 : c2 <;> simp [h1, h2]

/-- One flat iteration preserves the threading invariant, provided the
popped entry itself satisfies the queue clause. -/
theorem flatStep_inv (m : Model) (oracle : Oracle) (node : Node) (ref : Assignment)
    (st st1 : FlatState)
    (hcur : ∀ v, node.vars = some v →
      v = ref ∨ ∃ pr, Event.admitLeft pr v ref ∈ st.events)
    (hinv : FlatInv st) (hstep : flatStep m oracle (node, ref) st = .ok st1) :
    FlatInv st1 := by
  obtain ⟨dv, l, lreq, r, rreq, lk, rk, hnv, hg, hlv, hrv, hcases⟩ :=
    flatStep_ok_anatomy m oracle node ref st st1 hstep
  obtain ⟨h1, h2, h3, h4⟩ := hinv
  have hF1 : ∀ x : Event, x ∈ st1.events → x ∈ st.events ∨ x = Event.genCall dv ref ∨
      (x = Event.admitLeft ref lk ref ∧ lk ∉ st.visited) ∨ x = Event.admitRight ref rk rk := by
    intro x hx
    rcases hcases with ⟨-, -, rfl⟩ | ⟨-, -, rfl⟩ | ⟨hL, -, rfl⟩ | ⟨hL, -, rfl⟩ <;>
      simp only [List.mem_append, List.mem_singleton] at hx
    · tauto
    · tauto
    · rcases hx with (hx | hx) | hx
      · exact .inl hx
      · exact .inr (.inl hx)
      · exact .inr (.inr (.inl ⟨hx, hL⟩))
    · rcases hx with ((hx | hx) | hx) | hx
      · exact .inl hx
      · exact .inr (.inl hx)
      · exact .inr (.inr (.inl ⟨hx, hL⟩))
      · exact .inr (.inr (.inr hx))
  have hF2 : ∀ x : Event, x ∈ st.events → x ∈ st1.events := by
    intro x hx
    rcases hcases with ⟨-, -, rfl⟩ | ⟨-, -, rfl⟩ | ⟨-, -, rfl⟩ | ⟨-, -, rfl⟩ <;>
      simp [hx]
  have hF3 : ∀ e : Node × Assignment, e ∈ st1.queue →
      e ∈ st.queue ∨ (e = (l, ref) ∧ lk ∉ st.visited) ∨ e = (r, rk) := by
    intro e he
    rcases hcases with ⟨-, -, rfl⟩ | ⟨-, -, rfl⟩ | ⟨hL, -, rfl⟩ | ⟨hL, -, rfl⟩ <;>
      simp only [List.mem_append, List.mem_singleton] at he
    · exact .inl he
    · tauto
    · rcases he with he | he
      · exact .inl he
      · exact .inr (.inl ⟨he, hL⟩)
    · rcases he with (he | he) | he
      · exact .inl he
      · exact .inr (.inl ⟨he, hL⟩)
      · exact .inr (.inr he)
  have hF4 : lk ∉ st.visited → Event.admitLeft ref lk ref ∈ st1.events := by
    intro hL
    rcases hcases with ⟨hL2, -, rfl⟩ | ⟨hL2, -, rfl⟩ | ⟨-, -, rfl⟩ | ⟨-, -, rfl⟩ <;>
      first
        | exact absurd hL2 hL
        | simp
  refine ⟨?_, ?_, ?_, ?_⟩
  · intro pr cv tr hev
    rcases hF1 _ hev with hev | hev | ⟨hev, -⟩ | hev
    · exact h1 pr cv tr hev
    · exact absurd hev (by simp)
    · injection hev with e1 e2 e3
      rw [e3, e1]
    · exact absurd hev (by simp)
  · intro pr cv tr hev
    rcases hF1 _ hev with hev | hev | ⟨hev, -⟩ | hev
    · exact h2 pr cv tr hev
    · exact absurd hev (by simp)
    · exact absurd hev (by simp)
    · injection hev with e1 e2 e3
      rw [e3, e2]
  · intro dv1 rs hev
    rcases hF1 _ hev with hev | hev | ⟨hev, -⟩ | hev
    · rcases h3 dv1 rs hev with h | ⟨pr, hpr⟩
      · exact .inl h
      · exact .inr ⟨pr, hF2 _ hpr⟩
    · injection hev with e1 e2
      rw [e1, e2]
      rcases hcur dv (by rw [hnv]) with h | ⟨pr, hpr⟩
      · exact .inl h
      · exact .inr ⟨pr, hF2 _ hpr⟩
    · exact absurd hev (by simp)
    · exact absurd hev (by simp)
  · intro e he v hv
    rcases hF3 e he with he | ⟨rfl, hL⟩ | rfl
    · rcases h4 e he v hv with h | ⟨pr, hpr⟩
      · exact .inl h
      · exact .inr ⟨pr, hF2 _ hpr⟩
    · rw [hlv] at hv
      obtain rfl := Option.some.inj hv
      exact .inr ⟨ref, hF4 hL⟩
    · rw [hrv] at hv
      obtain rfl := Option.some.inj hv
      exact .inl rfl

/-- The flat loop keeps the threading invariant on the events it returns. -/
theorem flatLoop_inv (m : Model) (oracle : Oracle) : ∀ (fuel : ℕ) (st : FlatState),
    FlatInv st →
    (∀ pr cv tr, Event.admitLeft pr cv tr ∈ (flatLoop m oracle fuel st).events → tr = pr) ∧
    (∀ pr cv tr, Event.admitRight pr cv tr ∈ (flatLoop m oracle fuel st).events → tr = cv) ∧
    (∀ dv rs, Event.genCall dv rs ∈ (flatLoop m oracle fuel st).events →
      dv = rs ∨ ∃ pr, Event.admitLeft pr dv rs ∈ (flatLoop m oracle fuel st).events)
  | 0, st, hinv => by
      rw [flatLoop]
      cases hq : st.queue with
      | nil => exact ⟨hinv.1, hinv.2.1, hinv.2.2.1⟩
      | cons cur rest => exact ⟨hinv.1, hinv.2.1, hinv.2.2.1⟩
  | fuel + 1, st, hinv => by
      rw [flatLoop]
      cases hq : st.queue with
      | nil => exact ⟨hinv.1, hinv.2.1, hinv.2.2.1⟩
      | cons cur rest =>
          obtain ⟨node, ref⟩ := cur
          dsimp only
          cases hstep : flatStep m oracle (node, ref) { st with queue := rest } with
          | error e => exact ⟨hinv.1, hinv.2.1, hinv.2.2.1⟩
          | ok st1 =>
              refine flatLoop_inv m oracle fuel st1 ?_
              refine flatStep_inv m oracle node ref _ st1 ?_ ?_ hstep
              · intro v hv
                exact hinv.2.2.2 (node, ref) (by rw [hq]; exact List.mem_cons_self _ _) v hv
              · exact ⟨hinv.1, hinv.2.1, hinv.2.2.1,
                  fun e he => hinv.2.2.2 e (by rw [hq]; exact List.mem_cons_of_mem _ he)⟩

/-- One tree iteration only appends entries tagged "left" carrying the
popped reference or tagged "right" carrying their own key. -/
theorem treeStep_queue (m : Model) (oracle : Oracle) (cur : Node × Assignment × String)
    (st st1 : TreeState) (h : treeStep m oracle cur st = .ok st1) :
    ∀ e ∈ st1.queue, e ∈ st.queue ∨
      (e.2.2 = "left" ∧ e.2.1 = cur.2.1) ∨
      (e.2.2 = "right" ∧ e.1.vars = some e.2.1) := by
  obtain ⟨node, ref, tag⟩ := cur
  obtain ⟨dv, l, lreq, r, rreq, lk, rk, hnv, hg, hlv, hrv, hcases⟩ :=
    treeStep_ok_anatomy m oracle node ref tag st st1 h
  intro e he
  have : e ∈ st.queue ∨ e = (l, ref, "left") ∨ e = (r, rk, "right") := by
    rcases hcases with ⟨-, -, rfl⟩ | ⟨-, -, rfl⟩ | ⟨-, -, rfl⟩ | ⟨-, -, rfl⟩ <;>
      simp only [List.mem_append, List.mem_singleton] at he <;> tauto
  rcases this with he | rfl | rfl
  · exact .inl he
  · exact .inr (.inl ⟨rfl, rfl⟩)
  · exact .inr (.inr ⟨rfl, hrv⟩)

/-- C9: asymmetric reference-assignment threading.  In every flat run, every
recorded left admission threads the popped (parent) reference into the new
frontier entry, every recorded right admission threads the right child's own
assignment, and every recorded generate_child_nodes call took as its
parent-value source either the expanded node's own assignment (the root and
right-admitted entries) or the reference recorded at the node's left
admission; in tree mode, every entry a loop iteration appends is either
tagged "left" and paired with the popped reference or tagged "right" and
paired with its own assignment. -/
theorem reference_assignment_threading (m : Model) (oracle : Oracle) (fuel : ℕ) :
    (∀ pr cv tr, Event.admitLeft pr cv tr ∈ (solve_branch_and_bound m oracle fuel).events →
      tr = pr) ∧
    (∀ pr cv tr, Event.admitRight pr cv tr ∈ (solve_branch_and_bound m oracle fuel).events →
      tr = cv) ∧
    (∀ dv rs, Event.genCall dv rs ∈ (solve_branch_and_bound m oracle fuel).events →
      dv = rs ∨ ∃ pr, Event.admitLeft pr dv rs ∈ (solve_branch_and_bound m oracle fuel).events) ∧
    (∀ (cur : Node × Assignment × String) (st st1 : TreeState),
      treeStep m oracle cur st = .ok st1 →
      ∀ e ∈ st1.queue, e ∈ st.queue ∨
        (e.2.2 = "left" ∧ e.2.1 = cur.2.1) ∨
        (e.2.2 = "right" ∧ e.1.vars = some e.2.1)) := by
  have htree := treeStep_queue m oracle
  rw [solve_branch_and_bound]
  cases hx1 : m.extract_coefficients with
  | error e => exact ⟨by simp, by simp, by simp, htree⟩
  | ok parts =>
      obtain ⟨objc, rows, ops, rhs⟩ := parts
      dsimp only
      cases hx2 : lp_relaxation oracle m.set_obj rows ops rhs m.binary_vars with
      | error e => exact ⟨by simp, by simp, by simp, htree⟩
      | ok pair =>
          obtain ⟨relaxation, relaxReq⟩ := pair
          dsimp only
          cases hx3 : find_next_branch_var? relaxation with
          | error e => exact ⟨by simp, by simp, by simp, htree⟩
          | ok nb =>
              dsimp only
              cases hx4 : generate_root_node oracle m.set_obj objc rows ops rhs
                  m.binary_vars nb with
              | error e => exact ⟨by simp, by simp, by simp, htree⟩
              | ok rootpair =>
                  obtain ⟨root_node, rootReq⟩ := rootpair
                  dsimp only
                  cases hri : items? root_node.vars with
                  | error e => exact ⟨by simp, by simp, by simp, htree⟩
                  | ok rootVars =>
                      have hrootv : root_node.vars = some rootVars := by
                        cases hx : root_node.vars with
                        | none => rw [hx] at hri; exact absurd hri (by simp [items?])
                        | some v =>
                            rw [hx] at hri
                            simp only [items?, Except.ok.injEq] at hri
                            rw [hri]
                      have hinit : FlatInv ⟨[(root_node, rootVars)], [rootVars],
                          [relaxReq, rootReq], []⟩ := by
                        refine ⟨by simp, by simp, by simp, ?_⟩
                        intro e he v hv
                        obtain rfl := List.mem_singleton.mp he
                        rw [hrootv] at hv
                        obtain rfl := Option.some.inj hv
                        exact .inl rfl
                      obtain ⟨ha, hb, hc⟩ := flatLoop_inv m oracle fuel _ hinit
                      exact ⟨ha, hb, hc, htree⟩

/-- Witness for reference_assignment_threading: the left admission recorded
in the m4 run threads the popped reference. -/
theorem reference_assignment_threading_witness :
    (Event.admitLeft [("x1", 0)] [("x1", mkRat 1 2)] [("x1", 0)] ∈
      (solve_branch_and_bound m4 oracle4 10).events) ∧
    ([("x1", 0)] : Assignment) = [("x1", 0)] :=
  ⟨by decide,
   (reference_assignment_threading m4 oracle4 10).1 [("x1", 0)] [("x1", mkRat 1 2)]
     [("x1", 0)] (by decide)⟩

/-! ### Search tree in-degree structure (C10) -/

set_option maxHeartbeats 1600000 in
/-- One tree iteration preserves the in-degree invariant, provided the
popped reference is a recorded node key. -/
theorem treeStep_TreeInv (m : Model) (oracle : Oracle) (rootk : Assignment)
    (node : Node) (ref : Assignment) (tag : String) (st st1 : TreeState)
    (href : ref ∈ st.graph.keys) (hinv : TreeInv rootk st)
    (hstep : treeStep m oracle (node, ref, tag) st = .ok st1) : TreeInv rootk st1 := by
  obtain ⟨dv, l, lreq, r, rreq, lk, rk, hnv, hg, hlv, hrv, hcases⟩ :=
    treeStep_ok_anatomy m oracle node ref tag st st1 hstep
  clear hstep
  obtain ⟨q1, v1, g1, p1⟩ := st1
  simp only [TreeState.mk.injEq] at hcases
  obtain ⟨i1, i2, i3, i4, i5⟩ := hinv
  have hgr2 : g1 =
      (((st.graph.addNode lk l.obj).addEdge ref lk).addNode rk r.obj).addEdge ref rk := by
    rcases hcases with ⟨-, -, -, -, h, -⟩ | ⟨-, -, -, -, h, -⟩ |
      ⟨-, -, -, -, h, -⟩ | ⟨-, -, -, -, h, -⟩ <;> exact h
  have hp2 : p1 = (st.produced ++ [lk]) ++ [rk] := by
    rcases hcases with ⟨-, -, -, -, -, h⟩ | ⟨-, -, -, -, -, h⟩ |
      ⟨-, -, -, -, -, h⟩ | ⟨-, -, -, -, -, h⟩ <;> exact h
  have hqsub : ∀ q : Node × Assignment × String, q ∈ q1 →
      q ∈ st.queue ∨ q = (l, ref, "left") ∨ q = (r, rk, "right") := by
    intro q hq
    rcases hcases with ⟨-, -, h, -, -, -⟩ | ⟨-, -, h, -, -, -⟩ |
      ⟨-, -, h, -, -, -⟩ | ⟨-, -, h, -, -, -⟩
    · rw [h] at hq
      exact .inl hq
    · rw [h] at hq
      rcases List.mem_append.mp hq with hq | hq
      · exact .inl hq
      · exact .inr (.inr (List.mem_singleton.mp hq))
    · rw [h] at hq
      rcases List.mem_append.mp hq with hq | hq
      · exact .inl hq
      · exact .inr (.inl (List.mem_singleton.mp hq))
    · rw [h] at hq
      rcases List.mem_append.mp hq with hq | hq
      · rcases List.mem_append.mp hq with hq | hq
        · exact .inl hq
        · exact .inr (.inl (List.mem_singleton.mp hq))
      · exact .inr (.inr (List.mem_singleton.mp hq))
  have hrefA : ref ∈ (st.graph.addNode lk l.obj).keys :=
    (Graph.keys_addNode _ _ _ _).mpr (.inl href)
  have hlkA : lk ∈ (st.graph.addNode lk l.obj).keys :=
    (Graph.keys_addNode _ _ _ _).mpr (.inr rfl)
  have hg1nodes := Graph.nodes_addEdge _ _ _ hrefA hlkA
  have hg1keys : ∀ x, x ∈ ((st.graph.addNode lk l.obj).addEdge ref lk).keys ↔
      x ∈ st.graph.keys ∨ x = lk := by
    intro x
    rw [Graph.keys, hg1nodes, ← Graph.keys, Graph.keys_addNode]
  have hg1edges : ∀ e, e ∈ ((st.graph.addNode lk l.obj).addEdge ref lk).edges ↔
      e ∈ st.graph.edges ∨ e = (ref, lk) := by
    intro e
    rw [Graph.edges_addEdge _ _ _ hrefA hlkA, Graph.edges_addNode]
  have hrefB : ref ∈ (((st.graph.addNode lk l.obj).addEdge ref lk).addNode rk r.obj).keys :=
    (Graph.keys_addNode _ _ _ _).mpr (.inl ((hg1keys ref).mpr (.inl href)))
  have hrkB : rk ∈ (((st.graph.addNode lk l.obj).addEdge ref lk).addNode rk r.obj).keys :=
    (Graph.keys_addNode _ _ _ _).mpr (.inr rfl)
  have hg2nodes := Graph.nodes_addEdge _ _ _ hrefB hrkB
  have hg2keys : ∀ x, x ∈ g1.keys ↔ x ∈ st.graph.keys ∨ x = lk ∨ x = rk := by
    intro x
    rw [hgr2, Graph.keys, hg2nodes, ← Graph.keys, Graph.keys_addNode, hg1keys]
    exact or_assoc
  have hg2edges : ∀ e, e ∈ g1.edges ↔
      e ∈ st.graph.edges ∨ e = (ref, lk) ∨ e = (ref, rk) := by
    intro e
    rw [hgr2, Graph.edges_addEdge _ _ _ hrefB hrkB, Graph.edges_addNode, hg1edges]
    exact or_assoc
  have hg2head : ∃ a1 rest1, g1.nodes = (rootk, a1) :: rest1 := by
    obtain ⟨a0, rest0, h0⟩ := i1
    obtain ⟨a1, rest1, h1⟩ := Graph.addNode_head st.graph lk l.obj rootk a0 rest0 h0
    have h1b : ((st.graph.addNode lk l.obj).addEdge ref lk).nodes = (rootk, a1) :: rest1 := by
      rw [hg1nodes]
      exact h1
    obtain ⟨a2, rest2, h2⟩ :=
      Graph.addNode_head ((st.graph.addNode lk l.obj).addEdge ref lk) rk r.obj rootk a1 rest1 h1b
    refine ⟨a2, rest2, ?_⟩
    rw [hgr2, hg2nodes]
    exact h2
  refine ⟨hg2head, ?_, ?_, ?_, ?_⟩
  · intro k hk hkr
    rcases (hg2keys k).mp hk with hk | rfl | rfl
    · obtain ⟨e, he, he2⟩ := i2 k hk hkr
      exact ⟨e, (hg2edges e).mpr (.inl he), he2⟩
    · exact ⟨(ref, k), (hg2edges _).mpr (.inr (.inl rfl)), rfl⟩
    · exact ⟨(ref, k), (hg2edges _).mpr (.inr (.inr rfl)), rfl⟩
  · rw [hp2]
    constructor
    · rintro ⟨e, he, he2⟩
      rcases (hg2edges e).mp he with he | rfl | rfl
      · have := i3.mp ⟨e, he, he2⟩
        simp only [List.mem_append]
        exact .inl (.inl this)
      · simp only [List.mem_append]
        exact .inl (.inr (by simp [← he2]))
      · simp only [List.mem_append]
        exact .inr (by simp [← he2])
    · intro hp
      simp only [List.mem_append, List.mem_singleton] at hp
      rcases hp with (hp | hp) | hp
      · obtain ⟨e, he, he2⟩ := i3.mpr hp
        exact ⟨e, (hg2edges e).mpr (.inl he), he2⟩
      · exact ⟨(ref, rootk), (hg2edges _).mpr (.inr (.inl (by rw [hp]))), rfl⟩
      · exact ⟨(ref, rootk), (hg2edges _).mpr (.inr (.inr (by rw [hp]))), rfl⟩
  · intro e he
    rcases (hg2edges e).mp he with he | rfl | rfl
    · obtain ⟨ha, hb⟩ := i4 e he
      exact ⟨(hg2keys _).mpr (.inl ha), (hg2keys _).mpr (.inl hb)⟩
    · exact ⟨(hg2keys _).mpr (.inl href), (hg2keys _).mpr (.inr (.inl rfl))⟩
    · exact ⟨(hg2keys _).mpr (.inl href), (hg2keys _).mpr (.inr (.inr rfl))⟩
  · intro q hq
    rcases hqsub q hq with hq | rfl | rfl
    · exact (hg2keys _).mpr (.inl (i5 q hq))
    · exact (hg2keys _).mpr (.inl href)
    · exact (hg2keys _).mpr (.inr (.inr rfl))

/-- The tree loop preserves the invariant all the way to its final graph and
produced list. -/
theorem treeLoop_TreeInv (m : Model) (oracle : Oracle) (rootk : Assignment) :
    ∀ (fuel : ℕ) (st : TreeState) (g : Graph) (prod : List Assignment),
      TreeInv rootk st →
      treeLoop m oracle fuel st = .ok (g, prod) →
      (∃ a rest, g.nodes = (rootk, a) :: rest) ∧
      (∀ k, k ∈ g.keys → k ≠ rootk → ∃ e ∈ g.edges, e.2 = k) ∧
      ((∃ e ∈ g.edges, e.2 = rootk) ↔ rootk ∈ prod)
  | 0, st, g, prod, hinv, hrun => by
      rw [treeLoop] at hrun
      cases hq : st.queue with
      | nil =>
          rw [hq] at hrun
          dsimp only at hrun
          simp only [Outcome.ok.injEq, Prod.mk.injEq] at hrun
          obtain ⟨rfl, rfl⟩ := hrun
          exact ⟨hinv.1, hinv.2.1, hinv.2.2.1⟩
      | cons cur rest =>
          rw [hq] at hrun
          dsimp only at hrun
          exact Outcome.noConfusion hrun
  | fuel + 1, st, g, prod, hinv, hrun => by
      rw [treeLoop] at hrun
      cases hq : st.queue with
      | nil =>
          rw [hq] at hrun
          dsimp only at hrun
          simp only [Outcome.ok.injEq, Prod.mk.injEq] at hrun
          obtain ⟨rfl, rfl⟩ := hrun
          exact ⟨hinv.1, hinv.2.1, hinv.2.2.1⟩
      | cons cur rest =>
          rw [hq] at hrun
          obtain ⟨node, ref, tag⟩ := cur
          dsimp only at hrun
          cases hstep : treeStep m oracle (node, ref, tag) { st with queue := rest } with
          | error e =>
              rw [hstep] at hrun
              dsimp only at hrun
              exact Outcome.noConfusion hrun
          | ok st1 =>
              rw [hstep] at hrun
              dsimp only at hrun
              refine treeLoop_TreeInv m oracle rootk fuel st1 g prod ?_ hrun
              refine treeStep_TreeInv m oracle rootk node ref tag _ st1 ?_ ?_ hstep
              · exact hinv.2.2.2.2 (node, ref, tag)
                  (by rw [hq]; exact List.mem_cons_self _ _)
              · exact ⟨hinv.1, hinv.2.1, hinv.2.2.1, hinv.2.2.2.1,
                  fun q hq' => hinv.2.2.2.2 q
                    (by rw [hq]; exact List.mem_cons_of_mem _ hq')⟩

/-- The initial tree state satisfies the in-degree invariant for the root
key. -/
theorem TreeInv_init (root_node : Node) (rootVars : Assignment) :
    TreeInv rootVars ⟨[(root_node, rootVars, "root")], [rootVars],
      (Graph.mk [] []).addNode rootVars root_node.obj, []⟩ := by
  have hnodes : ((Graph.mk [] []).addNode rootVars root_node.obj).nodes
      = [(rootVars, root_node.obj)] := by
    rw [Graph.addNode, if_neg (by simp [Graph.keys])]
    rfl
  have hedges : ((Graph.mk [] []).addNode rootVars root_node.obj).edges = [] := by
    rw [Graph.addNode]
    split <;> rfl
  have hkeys : ((Graph.mk [] []).addNode rootVars root_node.obj).keys = [rootVars] := by
    rw [Graph.keys, hnodes]
    rfl
  refine ⟨⟨root_node.obj, [], by dsimp only; rw [hnodes]⟩, ?_, ?_, ?_, ?_⟩
  · intro k hk hkr
    dsimp only at hk
    rw [hkeys] at hk
    exact absurd (List.mem_singleton.mp hk) hkr
  · constructor
    · rintro ⟨e, he, -⟩
      dsimp only at he
      rw [hedges] at he
      exact absurd he (List.not_mem_nil e)
    · intro hp
      exact absurd hp (List.not_mem_nil _)
  · intro e he
    dsimp only at he
    rw [hedges] at he
    exact absurd he (List.not_mem_nil e)
  · intro q hqm
    dsimp only at hqm
    obtain rfl := List.mem_singleton.mp hqm
    dsimp only
    rw [hkeys]
    exact List.mem_singleton.mpr rfl

/-- C10: in the graph built by create_branch_and_bound_tree, every node
other than the first-inserted (root) node has in-degree at least one, and
the root node has in-degree zero if and only if its key never reappears as
a generated child key (the self-loop case). -/
theorem tree_indegree_characterization (m : Model) (oracle : Oracle) (fuel : ℕ)
    (g : Graph) (prod : List Assignment) (rootk : Assignment) (a : Option ℚ)
    (hrun : create_branch_and_bound_tree m oracle fuel = .ok (g, prod))
    (hhead : g.nodes.head? = some (rootk, a)) :
    (∀ k ∈ g.keys, k ≠ rootk → 1 ≤ g.inDeg k) ∧
    (g.inDeg rootk = 0 ↔ rootk ∉ prod) := by
  rw [create_branch_and_bound_tree] at hrun
  cases hex : m.extract_coefficients with
  | error e => rw [hex] at hrun; exact Outcome.noConfusion hrun
  | ok quad =>
      obtain ⟨objective_coeffs, constraint_coeffs, operators, last_values⟩ := quad
      rw [hex] at hrun
      dsimp only at hrun
      cases hlp : lp_relaxation oracle m.set_obj constraint_coeffs operators last_values
          m.binary_vars with
      | error e => rw [hlp] at hrun; exact Outcome.noConfusion hrun
      | ok relpair =>
          obtain ⟨relaxation, relaxReq⟩ := relpair
          rw [hlp] at hrun
          dsimp only at hrun
          cases hnb : find_next_branch_var? relaxation with
          | error e => rw [hnb] at hrun; exact Outcome.noConfusion hrun
          | ok next_branch_var =>
              rw [hnb] at hrun
              dsimp only at hrun
              cases hroot : generate_root_node oracle m.set_obj objective_coeffs
                  constraint_coeffs operators last_values m.binary_vars
                  next_branch_var with
              | error e => rw [hroot] at hrun; exact Outcome.noConfusion hrun
              | ok rootpair =>
                  obtain ⟨root_node, rootReq⟩ := rootpair
                  rw [hroot] at hrun
                  dsimp only at hrun
                  cases hrv : items? root_node.vars with
                  | error e => rw [hrv] at hrun; exact Outcome.noConfusion hrun
                  | ok rootVars =>
                      rw [hrv] at hrun
                      dsimp only at hrun
                      obtain ⟨h1, h2, h3⟩ := treeLoop_TreeInv m oracle rootVars fuel
                        _ g prod (TreeInv_init root_node rootVars) hrun
                      obtain ⟨a1, rest1, hn⟩ := h1
                      rw [hn] at hhead
                      simp only [List.head?_cons, Option.some.injEq,
                        Prod.mk.injEq] at hhead
                      obtain ⟨rfl, rfl⟩ := hhead
                      refine ⟨?_, ?_⟩
                      · intro k hk hkr
                        exact (Graph.inDeg_pos_iff g k).mpr (h2 k hk hkr)
                      · have h4 := (Graph.inDeg_pos_iff g _).trans h3
                        constructor
                        · intro h0 hmem
                          have := h4.mpr hmem
                          omega
                        · intro hnm
                          by_contra h0
                          exact hnm (h4.mp (by omega))

/-- Witness: the m1 run, whose single graph node is the root with a
self-loop, so the root has in-degree one and its key is among the produced
child keys. -/
theorem tree_indegree_characterization_witness :
    (create_branch_and_bound_tree m1 oracle1 10 =
      .ok (Graph.mk [([("x1", 1)], some 1)] [([("x1", 1)], [("x1", 1)])],
        [[("x1", 1)], [("x1", 1)]]) ∧
     (Graph.mk [([("x1", 1)], some 1)]
        [([("x1", 1)], [("x1", 1)])]).nodes.head? = some ([("x1", 1)], some 1)) ∧
    (∀ k ∈ (Graph.mk [([("x1", 1)], some 1)]
        [([("x1", 1)], [("x1", 1)])]).keys, k ≠ [("x1", 1)] →
      1 ≤ (Graph.mk [([("x1", 1)], some 1)] [([("x1", 1)], [("x1", 1)])]).inDeg k) ∧
    ((Graph.mk [([("x1", 1)], some 1)]
        [([("x1", 1)], [("x1", 1)])]).inDeg [("x1", 1)] = 0 ↔
      [("x1", 1)] ∉ ([[("x1", 1)], [("x1", 1)]] : List Assignment)) :=
  ⟨⟨by decide, by decide⟩,
   tree_indegree_characterization m1 oracle1 10
     (Graph.mk [([("x1", 1)], some 1)] [([("x1", 1)], [("x1", 1)])])
     [[("x1", 1)], [("x1", 1)]] [("x1", 1)] (some 1) (by decide) (by decide)⟩

/-! ### Traversal equivalence of the two drivers (C8) -/

/-- Keys after recording both children: the original keys plus the two
child keys (the popped reference is already recorded, so add_edge adds no
stray endpoint). -/
theorem Graph.keys_chain (g : Graph) (ref lk rk : Assignment) (a b : Option ℚ)
    (href : ref ∈ g.keys) (x : Assignment) :
    x ∈ ((((g.addNode lk a).addEdge ref lk).addNode rk b).addEdge ref rk).keys ↔
      x ∈ g.keys ∨ x = lk ∨ x = rk := by
  have hrefA : ref ∈ (g.addNode lk a).keys :=
    (Graph.keys_addNode _ _ _ _).mpr (.inl href)
  have hlkA : lk ∈ (g.addNode lk a).keys :=
    (Graph.keys_addNode _ _ _ _).mpr (.inr rfl)
  have hg1nodes := Graph.nodes_addEdge _ _ _ hrefA hlkA
  have hg1keys : ∀ y, y ∈ ((g.addNode lk a).addEdge ref lk).keys ↔
      y ∈ g.keys ∨ y = lk := by
    intro y
    rw [Graph.keys, hg1nodes, ← Graph.keys, Graph.keys_addNode]
  have hrefB : ref ∈ (((g.addNode lk a).addEdge ref lk).addNode rk b).keys :=
    (Graph.keys_addNode _ _ _ _).mpr (.inl ((hg1keys ref).mpr (.inl href)))
  have hrkB : rk ∈ (((g.addNode lk a).addEdge ref lk).addNode rk b).keys :=
    (Graph.keys_addNode _ _ _ _).mpr (.inr rfl)
  have hg2nodes := Graph.nodes_addEdge _ _ _ hrefB hrkB
  rw [Graph.keys, hg2nodes, ← Graph.keys, Graph.keys_addNode, hg1keys]
  exact or_assoc

/-- Forward evaluation of a flat iteration in each of the four admission
combinations, given the popped dict, the generated children and their
dicts. -/
theorem flatStep_eval (m : Model) (oracle : Oracle) (node : Node) (ref : Assignment)
    (st : FlatState) (dv lk rk : Assignment) (l r : Node) (lreq rreq : LPRequest)
    (hnv : node.vars = some dv)
    (hg : generate_child_nodes m oracle dv (find_next_branch_var dv) ref =
      .ok (l, lreq, r, rreq))
    (hlv : l.vars = some lk) (hrv : r.vars = some rk) :
    (lk ∈ st.visited → rk ∈ st.visited →
      flatStep m oracle (node, ref) st = .ok ⟨st.queue, st.visited,
        st.trace ++ [lreq, rreq], st.events ++ [Event.genCall dv ref]⟩) ∧
    (lk ∈ st.visited → rk ∉ st.visited →
      flatStep m oracle (node, ref) st = .ok ⟨st.queue ++ [(r, rk)],
        st.visited ++ [rk], st.trace ++ [lreq, rreq],
        (st.events ++ [Event.genCall dv ref]) ++ [Event.admitRight ref rk rk]⟩) ∧
    (lk ∉ st.visited → rk ∈ st.visited ++ [lk] →
      flatStep m oracle (node, ref) st = .ok ⟨st.queue ++ [(l, ref)],
        st.visited ++ [lk], st.trace ++ [lreq, rreq],
        (st.events ++ [Event.genCall dv ref]) ++ [Event.admitLeft ref lk ref]⟩) ∧
    (lk ∉ st.visited → rk ∉ st.visited ++ [lk] →
      flatStep m oracle (node, ref) st = .ok ⟨(st.queue ++ [(l, ref)]) ++ [(r, rk)],
        (st.visited ++ [lk]) ++ [rk], st.trace ++ [lreq, rreq],
        ((st.events ++ [Event.genCall dv ref]) ++ [Event.admitLeft ref lk ref])
          ++ [Event.admitRight ref rk rk]⟩) := by
  refine ⟨?_, ?_, ?_, ?_⟩ <;> intro hlk hrk <;>
    rw [flatStep] <;> rw [hnv] <;> simp only [items?, bind, Except.bind] <;>
    rw [hg] <;> dsimp only <;> rw [hlv] <;> simp only [items?] <;> rw [hrv] <;>
    simp only [items?, pure, Except.pure, Except.ok.injEq, hlk, hrk, if_true, if_false]

/-- One related tree iteration is matched by a flat iteration: the flat
step succeeds on the same popped node with the same reference, and the
resulting states are again related. -/
theorem step_rel (m : Model) (oracle : Oracle) (node : Node) (ref : Assignment)
    (tag : String) (f : FlatState) (t t1 : TreeState)
    (hrv0 : ref ∈ t.visited) (hrel : FlatTreeRel f t)
    (hstep : treeStep m oracle (node, ref, tag) t = .ok t1) :
    ∃ f1, flatStep m oracle (node, ref) f = .ok f1 ∧ FlatTreeRel f1 t1 := by
  obtain ⟨hq1, hv1, hk1, hq4⟩ := hrel
  obtain ⟨dv, l, lreq, r, rreq, lk, rk, hnv, hg, hlv, hrv, hcases⟩ :=
    treeStep_ok_anatomy m oracle node ref tag t t1 hstep
  clear hstep
  have heval := flatStep_eval m oracle node ref f dv lk rk l r lreq rreq hnv hg hlv hrv
  rw [hv1] at heval
  have hrefk : ref ∈ t.graph.keys := (hk1 ref).mpr hrv0
  obtain ⟨tq1, tv1, tg1, tp1⟩ := t1
  simp only [TreeState.mk.injEq] at hcases
  rcases hcases with ⟨hlk, hrk, htq, htv, htg, -⟩ | ⟨hlk, hrk, htq, htv, htg, -⟩ |
    ⟨hlk, hrk, htq, htv, htg, -⟩ | ⟨hlk, hrk, htq, htv, htg, -⟩
  · refine ⟨_, heval.1 hlk hrk, ?_, ?_, ?_, ?_⟩
    · dsimp only
      rw [htq]
      exact hq1
    · dsimp only
      rw [htv]
    · intro x
      dsimp only
      rw [htg, htv, Graph.keys_chain t.graph ref lk rk l.obj r.obj hrefk]
      constructor
      · rintro (hx | rfl | rfl)
        · exact (hk1 x).mp hx
        · exact hlk
        · exact hrk
      · intro hx
        exact .inl ((hk1 x).mpr hx)
    · intro e he
      dsimp only at he ⊢
      rw [htq] at he
      rw [htv]
      exact hq4 e he
  · refine ⟨_, heval.2.1 hlk hrk, ?_, ?_, ?_, ?_⟩
    · dsimp only
      rw [htq, List.map_append, ← hq1]
      rfl
    · dsimp only
      rw [htv]
    · intro x
      dsimp only
      rw [htg, htv, Graph.keys_chain t.graph ref lk rk l.obj r.obj hrefk,
        List.mem_append, List.mem_singleton]
      constructor
      · rintro (hx | rfl | rfl)
        · exact .inl ((hk1 x).mp hx)
        · exact .inl hlk
        · exact .inr rfl
      · rintro (hx | rfl)
        · exact .inl ((hk1 x).mpr hx)
        · exact .inr (.inr rfl)
    · intro e he
      dsimp only at he ⊢
      rw [htq] at he
      rw [htv]
      rcases List.mem_append.mp he with he | he
      · exact List.mem_append.mpr (.inl (hq4 e he))
      · obtain rfl := List.mem_singleton.mp he
        exact List.mem_append.mpr (.inr (List.mem_singleton.mpr rfl))
  · refine ⟨_, heval.2.2.1 hlk hrk, ?_, ?_, ?_, ?_⟩
    · dsimp only
      rw [htq, List.map_append, ← hq1]
      rfl
    · dsimp only
      rw [htv]
    · intro x
      dsimp only
      rw [htg, htv, Graph.keys_chain t.graph ref lk rk l.obj r.obj hrefk]
      constructor
      · rintro (hx | rfl | rfl)
        · exact List.mem_append.mpr (.inl ((hk1 x).mp hx))
        · exact List.mem_append.mpr (.inr (List.mem_singleton.mpr rfl))
        · exact hrk
      · intro hx
        rcases List.mem_append.mp hx with hx | hx
        · exact .inl ((hk1 x).mpr hx)
        · exact .inr (.inl (List.mem_singleton.mp hx))
    · intro e he
      dsimp only at he ⊢
      rw [htq] at he
      rw [htv]
      rcases List.mem_append.mp he with he | he
      · exact List.mem_append.mpr (.inl (hq4 e he))
      · obtain rfl := List.mem_singleton.mp he
        exact List.mem_append.mpr (.inl hrv0)
  · refine ⟨_, heval.2.2.2 hlk hrk, ?_, ?_, ?_, ?_⟩
    · dsimp only
      rw [htq, List.map_append, List.map_append, ← hq1]
      rfl
    · dsimp only
      rw [htv]
    · intro x
      dsimp only
      rw [htg, htv, Graph.keys_chain t.graph ref lk rk l.obj r.obj hrefk,
        List.mem_append, List.mem_append, List.mem_singleton, List.mem_singleton]
      constructor
      · rintro (hx | rfl | rfl)
        · exact .inl (.inl ((hk1 x).mp hx))
        · exact .inl (.inr rfl)
        · exact .inr rfl
      · rintro ((hx | rfl) | rfl)
        · exact .inl ((hk1 x).mpr hx)
        · exact .inr (.inl rfl)
        · exact .inr (.inr rfl)
    · intro e he
      dsimp only at he ⊢
      rw [htq] at he
      rw [htv]
      rcases List.mem_append.mp he with he | he
      · rcases List.mem_append.mp he with he | he
        · exact List.mem_append.mpr (.inl (List.mem_append.mpr (.inl (hq4 e he))))
        · obtain rfl := List.mem_singleton.mp he
          exact List.mem_append.mpr (.inl (List.mem_append.mpr (.inl hrv0)))
      · obtain rfl := List.mem_singleton.mp he
        exact List.mem_append.mpr (.inr (List.mem_singleton.mpr rfl))

/-- Related loop states produce the same traversal: if the tree loop
returns a graph, the flat loop returns a visited set holding exactly the
graph's node keys. -/
theorem loop_rel (m : Model) (oracle : Oracle) :
    ∀ (fuel : ℕ) (f : FlatState) (t : TreeState),
      FlatTreeRel f t →
      ∀ (g : Graph) (prod : List Assignment),
        treeLoop m oracle fuel t = .ok (g, prod) →
        ∃ vis, (flatLoop m oracle fuel f).out = .ok vis ∧
          ∀ k, k ∈ g.keys ↔ k ∈ vis
  | 0, f, t, hrel, g, prod, hrun => by
      rw [treeLoop] at hrun
      cases hq : t.queue with
      | nil =>
          rw [hq] at hrun
          dsimp only at hrun
          simp only [Outcome.ok.injEq, Prod.mk.injEq] at hrun
          obtain ⟨rfl, rfl⟩ := hrun
          have hfq : f.queue = [] := by
            rw [hrel.1, hq]
            rfl
          refine ⟨f.visited, ?_, ?_⟩
          · rw [flatLoop, hfq]
          · intro k
            rw [hrel.2.1]
            exact hrel.2.2.1 k
      | cons cur rest =>
          rw [hq] at hrun
          dsimp only at hrun
          exact Outcome.noConfusion hrun
  | fuel + 1, f, t, hrel, g, prod, hrun => by
      rw [treeLoop] at hrun
      cases hq : t.queue with
      | nil =>
          rw [hq] at hrun
          dsimp only at hrun
          simp only [Outcome.ok.injEq, Prod.mk.injEq] at hrun
          obtain ⟨rfl, rfl⟩ := hrun
          have hfq : f.queue = [] := by
            rw [hrel.1, hq]
            rfl
          refine ⟨f.visited, ?_, ?_⟩
          · rw [flatLoop, hfq]
          · intro k
            rw [hrel.2.1]
            exact hrel.2.2.1 k
      | cons cur tq =>
          obtain ⟨node, ref, tag⟩ := cur
          rw [hq] at hrun
          dsimp only at hrun
          cases hstep : treeStep m oracle (node, ref, tag) { t with queue := tq } with
          | error e =>
              rw [hstep] at hrun
              dsimp only at hrun
              exact Outcome.noConfusion hrun
          | ok t1 =>
              rw [hstep] at hrun
              dsimp only at hrun
              have hfq : f.queue = (node, ref) :: tq.map (fun e => (e.1, e.2.1)) := by
                rw [hrel.1, hq]
                rfl
              have hrel' : FlatTreeRel { f with queue := tq.map (fun e => (e.1, e.2.1)) }
                  { t with queue := tq } :=
                ⟨rfl, hrel.2.1, hrel.2.2.1,
                 fun e he => hrel.2.2.2 e (by rw [hq]; exact List.mem_cons_of_mem _ he)⟩
              have hrv0 : ref ∈ ({ t with queue := tq } : TreeState).visited :=
                hrel.2.2.2 (node, ref, tag) (by rw [hq]; exact List.mem_cons_self _ _)
              obtain ⟨f1, hfstep, hrel1⟩ := step_rel m oracle node ref tag
                { f with queue := tq.map (fun e => (e.1, e.2.1)) }
                { t with queue := tq } t1 hrv0 hrel' hstep
              obtain ⟨vis, hv, hkeys⟩ := loop_rel m oracle fuel f1 t1 hrel1 g prod hrun
              refine ⟨vis, ?_, hkeys⟩
              rw [flatLoop, hfq]
              dsimp only
              rw [hfstep]
              exact hv

/-- C8: for the same model and oracle, the two drivers perform the same
traversal: whenever both runs return normally, the assignment-keys of the
nodes recorded in the returned graph are exactly the entries of the
returned visited set. -/
theorem flat_tree_same_traversal (m : Model) (oracle : Oracle) (fuel : ℕ)
    (g : Graph) (prod : List Assignment) (vis : List Assignment)
    (htree : create_branch_and_bound_tree m oracle fuel = .ok (g, prod))
    (hflat : (solve_branch_and_bound m oracle fuel).out = .ok vis) :
    ∀ k, k ∈ g.keys ↔ k ∈ vis := by
  rw [create_branch_and_bound_tree] at htree
  rw [solve_branch_and_bound] at hflat
  cases hex : m.extract_coefficients with
  | error e => rw [hex] at htree; exact Outcome.noConfusion htree
  | ok quad =>
      obtain ⟨objective_coeffs, constraint_coeffs, operators, last_values⟩ := quad
      rw [hex] at htree hflat
      dsimp only at htree hflat
      cases hlp : lp_relaxation oracle m.set_obj constraint_coeffs operators last_values
          m.binary_vars with
      | error e => rw [hlp] at htree; exact Outcome.noConfusion htree
      | ok relpair =>
          obtain ⟨relaxation, relaxReq⟩ := relpair
          rw [hlp] at htree hflat
          dsimp only at htree hflat
          cases hnb : find_next_branch_var? relaxation with
          | error e => rw [hnb] at htree; exact Outcome.noConfusion htree
          | ok next_branch_var =>
              rw [hnb] at htree hflat
              dsimp only at htree hflat
              cases hroot : generate_root_node oracle m.set_obj objective_coeffs
                  constraint_coeffs operators last_values m.binary_vars
                  next_branch_var with
              | error e => rw [hroot] at htree; exact Outcome.noConfusion htree
              | ok rootpair =>
                  obtain ⟨root_node, rootReq⟩ := rootpair
                  rw [hroot] at htree hflat
                  dsimp only at htree hflat
                  cases hrv : items? root_node.vars with
                  | error e => rw [hrv] at htree; exact Outcome.noConfusion htree
                  | ok rootVars =>
                      rw [hrv] at htree hflat
                      dsimp only at htree hflat
                      have hkeys0 : ((Graph.mk [] []).addNode rootVars
                          root_node.obj).keys = [rootVars] := by
                        rw [Graph.addNode, if_neg (by simp [Graph.keys])]
                        rfl
                      have hrel0 : FlatTreeRel
                          ⟨[(root_node, rootVars)], [rootVars],
                            [relaxReq, rootReq], []⟩
                          ⟨[(root_node, rootVars, "root")], [rootVars],
                            (Graph.mk [] []).addNode rootVars root_node.obj, []⟩ := by
                        refine ⟨rfl, rfl, ?_, ?_⟩
                        · intro k
                          dsimp only
                          rw [hkeys0]
                        · intro e he
                          dsimp only at he ⊢
                          obtain rfl := List.mem_singleton.mp he
                          exact List.mem_singleton.mpr rfl
                      obtain ⟨vis1, hv1, hkeys1⟩ := loop_rel m oracle fuel _ _
                        hrel0 g prod htree
                      rw [hv1] at hflat
                      obtain rfl := Outcome.ok.inj hflat
                      exact hkeys1

/-- Witness: the m1 run in both modes; the single graph node key is the
root assignment, which is also the only visited assignment. -/
theorem flat_tree_same_traversal_witness :
    (create_branch_and_bound_tree m1 oracle1 10 =
      .ok (Graph.mk [([("x1", 1)], some 1)] [([("x1", 1)], [("x1", 1)])],
        [[("x1", 1)], [("x1", 1)]]) ∧
     (solve_branch_and_bound m1 oracle1 10).out = .ok [[("x1", 1)]]) ∧
    ∀ k, k ∈ (Graph.mk [([("x1", 1)], some 1)]
      [([("x1", 1)], [("x1", 1)])]).keys ↔ k ∈ ([[("x1", 1)]] : List Assignment) :=
  ⟨⟨by decide, by decide⟩,
   flat_tree_same_traversal m1 oracle1 10
     (Graph.mk [([("x1", 1)], some 1)] [([("x1", 1)], [("x1", 1)])])
     [[("x1", 1)], [("x1", 1)]] [[("x1", 1)]] (by decide) (by decide)⟩

end BB
